import Mathlib

/-! cgogen runtime support: strings (`cgostring.c`) and maps (`maps.c`)

A shallow embedding of `src/cmd/utils/cgostring.c` and `src/cmd/utils/maps.c`
together with the C library routines they call, and the properties of the
string and map operations.

Conventions of the embedding:

* a `char` is the unsigned 8-bit value it stores (`Byte`);
* a `char*` is the list of cells from the pointed-to position up to the end of
  the allocated object; a cell is `none` while it is indeterminate;
* every memory access is checked: an access outside the object, or a read of
  an indeterminate cell, makes the operation return `none`;
* `int` and `unsigned int` are 32 bits wide and `int` arithmetic wraps in
  two's complement; `size_t` is wider than 32 bits (LP64) and does not wrap on
  the sizes of objects that exist, so it is a natural number here;
* `malloc` always succeeds (the source never tests its result);
* a map passed by pointer and updated in place is a map taken and returned.
-/

set_option maxRecDepth 8000

namespace Cgogen

/-! ## Memory and machine integers -/

/-- One `char` of storage, as the unsigned 8-bit value it holds. -/
abbrev Byte := Fin 256

/-- One cell of an allocated object: `some b` once written, `none` while its
content is indeterminate. -/
abbrev Cell := Option Byte

/-- What a `char*` gives access to: the cells from the pointer up to the end
of the object it points into. -/
abbrev Buf := List Cell

/-- Conversion of an integer value to `unsigned int`: reduction modulo 2^32. -/
def toUInt32 (x : Int) : Nat := (x % 2 ^ 32).toNat

/-- Conversion of an integer value to `int`: wrap-around into
`[-2^31, 2^31)`. -/
def toInt32 (x : Int) : Int := (x + 2 ^ 31) % 2 ^ 32 - 2 ^ 31

/-- The values an `int` parameter can hold. -/
def IsInt (x : Int) : Prop := -(2 ^ 31) ≤ x ∧ x < 2 ^ 31

instance (x : Int) : Decidable (IsInt x) :=
  inferInstanceAs (Decidable (-(2 ^ 31) ≤ x ∧ x < 2 ^ 31))

/-- C library `malloc(n)`: a fresh object of `n` indeterminate cells. -/
def malloc (n : Nat) : Buf := List.replicate n none

/-- C library `strlen(p)`: the number of bytes before the first zero byte.
Fails when the scan leaves the object or meets an indeterminate cell. -/
def strlen : Buf → Option Nat
  | some b :: rest => if b = 0 then some 0 else (strlen rest).map (· + 1)
  | _ => none

/-- C library `strcpy(dest, src)`: copies the bytes of `src` up to and
including the first zero byte to the start of `dest`; the value is `dest`
after the copy. Fails when `src` is not terminated inside its object or
`dest` has too few cells. -/
def strcpy : Buf → Buf → Option Buf
  | _ :: dest, some b :: src =>
    if b = 0 then some (some 0 :: dest) else (strcpy dest src).map (some b :: ·)
  | _, _ => none

/-- C library `strcat(dest, src)`: finds the terminating zero byte of `dest`
and copies `src` there, terminator included. -/
def strcat : Buf → Buf → Option Buf
  | some b :: dest, src =>
    if b = 0 then strcpy (some b :: dest) src else (strcat dest src).map (some b :: ·)
  | _, _ => none

/-- C library `strcmp(a, b)`: compares byte by byte, as unsigned values, up to
the first difference or the common terminator. Only the sign of the result is
specified by C; this model returns the difference of the two bytes. -/
def strcmp : Buf → Buf → Option Int
  | some x :: a, some y :: b =>
    if x ≠ y then some ((x.val : Int) - (y.val : Int))
    else if x = 0 then some 0
    else strcmp a b
  | _, _ => none

/-- Pointer arithmetic `p + i`: the result must stay inside the object or
one past its end. -/
def ptrAdd (p : Buf) (i : Int) : Option Buf :=
  if 0 ≤ i ∧ i ≤ (p.length : Int) then some (p.drop i.toNat) else none

/-- The read `p[i]`. -/
def load (p : Buf) (i : Nat) : Option Byte :=
  match p[i]? with
  | some (some b) => some b
  | _ => none

/-- The write `p[i] = b`. -/
def store (p : Buf) (i : Int) (b : Byte) : Option Buf :=
  if 0 ≤ i ∧ i < (p.length : Int) then some (p.set i.toNat (some b)) else none

/-! ## `cgostring.c` -/

/-- Modelled from the spec: the declaration of `GoString_` (`cgostring.h`) is
not part of the sources. The spec's data model gives it a `length` (a byte
count) and `bytes` (an owned buffer); the code names them `size` and `str`.
The `size` field holds the count it is assigned without loss. -/
structure GoString_ where
  str : Buf
  size : Nat
deriving DecidableEq

/-- `string_init`, cgostring.c lines 5-11. -/
def string_init (p : Buf) : Option GoString_ := do
  let size ← strlen p
  let str := malloc (size + 1)
  let str ← strcpy str p
  pure { str := str, size := size }

/-- `string_concat`, cgostring.c lines 13-20. -/
def string_concat (a b : GoString_) : Option GoString_ := do
  let la ← strlen a.str
  let lb ← strlen b.str
  let size := la + lb
  let str := malloc (size + 1)
  let str ← strcpy str a.str
  let str ← strcat str b.str
  pure { str := str, size := size }

/-- `string_length`, cgostring.c lines 22-24: the `size_t` result of `strlen`
is converted to the `unsigned int` return type. -/
def string_length (s : GoString_) : Option Nat := do
  let n ← strlen s.str
  pure (n % 2 ^ 32)

/-- `string_charAt`, cgostring.c lines 26-31. The index is an `unsigned int`;
it is compared with the `size_t` length without reduction. -/
def string_charAt (s : GoString_) (index : Nat) : Option Byte := do
  let n ← strlen s.str
  if index < n then load s.str index else pure 0

/-- `string_substring`, cgostring.c lines 33-44. `length` is an
`unsigned int`; in `index + len > length` the `int` sum is converted to
`unsigned int`; in `len = length - index` the difference is taken in
`unsigned int` and converted back to `int`. -/
def string_substring (s : GoString_) (index len : Int) : Option GoString_ := do
  let n ← strlen s.str
  -- unsigned int length = strlen(s.str);
  let length : Nat := n % 2 ^ 32
  -- if( index + len > length ) len = length - index;
  let len : Int :=
    if toUInt32 (toInt32 (index + len)) > length then
      toInt32 (((length : Int) - (toUInt32 index : Int)) % 2 ^ 32)
    else len
  -- result.size = length; result.str = malloc(result.size + 1);
  let size := length
  let str := malloc (size + 1)
  -- strcpy(result.str, s.str + index);
  let src ← ptrAdd s.str index
  let str ← strcpy str src
  -- result.str[len] = 0;
  let str ← store str len 0
  pure { str := str, size := size }

/-- The C truth value of a comparison. -/
def boolToInt (c : Bool) : Int := if c then 1 else 0

/-- `string_is_equal`, cgostring.c lines 46-48. -/
def string_is_equal (a b : GoString_) : Option Int := do
  let r ← strcmp a.str b.str
  pure (boolToInt (decide (r = 0)))

/-- `string_is_greater`, cgostring.c lines 51-53. -/
def string_is_greater (a b : GoString_) : Option Int := do
  let r ← strcmp a.str b.str
  pure (boolToInt (decide (r > 0)))

/-- `string_is_lesser`, cgostring.c lines 55-57. -/
def string_is_lesser (a b : GoString_) : Option Int := do
  let r ← strcmp a.str b.str
  pure (boolToInt (decide (r < 0)))

/-- `string_is_greater_than_or_equal`, cgostring.c lines 59-61. -/
def string_is_greater_than_or_equal (a b : GoString_) : Option Int := do
  let r ← strcmp a.str b.str
  pure (boolToInt (decide (r ≥ 0)))

/-- `string_is_lesser_than_or_equal`, cgostring.c lines 63-65. -/
def string_is_lesser_than_or_equal (a b : GoString_) : Option Int := do
  let r ← strcmp a.str b.str
  pure (boolToInt (decide (r ≤ 0)))

/-! ## Vocabulary of the statements -/

/-- The C string that holds the bytes `x`: the bytes followed by the
terminating zero byte. -/
def cstr (x : List Byte) : Buf := x.map some ++ [some 0]

/-- The content of a buffer read as a C string: the bytes before the first
zero byte. Undefined when the buffer is not terminated. -/
def content : Buf → Option (List Byte)
  | some b :: rest => if b = 0 then some [] else (content rest).map (b :: ·)
  | _ => none

/-- The bytes of an ASCII text. -/
def bytes (t : String) : List Byte := t.toList.map fun c => Fin.ofNat c.toNat

/-- No byte of `x` is the terminator: `x` can be the content of a C string. -/
def ZeroFree (x : List Byte) : Prop := ∀ c ∈ x, c ≠ 0

instance (x : List Byte) : Decidable (ZeroFree x) :=
  inferInstanceAs (Decidable (∀ c ∈ x, c ≠ 0))

/-- The value `strcmp` takes on two terminated buffers, computed on their
contents. -/
def cmpBytes : List Byte → List Byte → Int
  | [], [] => 0
  | [], d :: _ => -(d.val : Int)
  | c :: _, [] => (c.val : Int)
  | c :: u, d :: v => if c ≠ d then (c.val : Int) - (d.val : Int) else cmpBytes u v

/-- The ordering of the spec, in its words: `x` is a proper prefix of `y`, or
at the first position where they differ the byte of `x` is the smaller one. -/
def LexLess (x y : List Byte) : Prop :=
  (∃ t, t ≠ [] ∧ y = x ++ t) ∨
  (∃ p c d u v, x = p ++ c :: u ∧ y = p ++ d :: v ∧ c < d)

/-! ## `maps.c` -/

/-- An automatic array `char a[n]`: `n` indeterminate cells. -/
def localArray (n : Nat) : Buf := List.replicate n none

/-- The character of the decimal digit `d`. -/
def digitChar (d : Nat) : Byte := Fin.ofNat (48 + d)

/-- The decimal digits of `n`, most significant first; `fuel` bounds their
number. -/
def natDigits : Nat → Nat → List Byte
  | 0, _ => []
  | fuel + 1, n =>
    if n < 10 then [digitChar n] else natDigits fuel (n / 10) ++ [digitChar (n % 10)]

/-- The text that the conversion `%d` of the C library produces for `k`: the
decimal digits of the magnitude, after a `-` when `k` is negative. -/
def decimal (k : Int) : List Byte :=
  if k < 0 then 45 :: natDigits (k.natAbs + 1) k.natAbs else natDigits (k.natAbs + 1) k.natAbs

/-- Writes the bytes `t` and a terminating zero byte to the start of `dest`.
Fails when `dest` has too few cells. -/
def writeString : Buf → List Byte → Option Buf
  | _ :: dest, [] => some (some 0 :: dest)
  | _ :: dest, c :: t => (writeString dest t).map (some c :: ·)
  | [], _ => none

/-- C library `sprintf(dest, "%d", k)`: the text of `k` and its terminator are
written to `dest`; the value is `dest` after the call. -/
def sprintf (dest : Buf) (k : Int) : Option Buf := writeString dest (decimal k)

/-- Modelled from the spec: the map types of `maps.h` are not part of the
sources. The spec's data model makes a map a mapping from canonical keys
(byte strings) to values of one kind, with unique keys and no meaningful
order; it is kept here as the list of its entries. -/
abbrev KeyedMap (V : Type) := List (List Byte × V)

/-- Modelled from the spec: `GoIntMap` (`maps.h`), the map with integer
values. -/
abbrev GoIntMap := KeyedMap Int

/-- Modelled from the spec: `GoStringMap` (`maps.h`), the map with StringValue
values. -/
abbrev GoStringMap := KeyedMap GoString_

/-- Modelled from the spec: `GoObjectMap` (`maps.h`), the map with opaque
references as values; a reference is the address it holds. -/
abbrev GoObjectMap := KeyedMap Nat

/-- Modelled from the spec: `map_set` is not part of the sources. The spec
describes it as insert-or-replace: the value is stored under the key,
overwriting any entry for that exact key, and the map owns a copy of the key.
The key is read as a C string. -/
def map_set {V : Type} (m : KeyedMap V) (key : Buf) (v : V) : Option (KeyedMap V) := do
  let k ← content key
  pure ((k, v) :: m.filter (fun e => decide (e.1 ≠ k)))

/-- Modelled from the spec: lookup is not part of the sources. The spec asks
for a lookup that returns an absent indicator on a miss: the result is
`some none` on a miss and `some (some v)` on a hit. -/
def map_get {V : Type} (m : KeyedMap V) (key : Buf) : Option (Option V) := do
  let k ← content key
  pure ((m.find? (fun e => decide (e.1 = k))).map (·.2))

/-- `MapIntIntSet`, maps.c lines 4-8. -/
def MapIntIntSet (map : GoIntMap) (key : Int) (n : Int) : Option GoIntMap := do
  let strkey := localArray 1024
  let strkey ← sprintf strkey key
  map_set map strkey n

/-- `MapIntStringSet`, maps.c lines 10-14. -/
def MapIntStringSet (map : GoStringMap) (key : Int) (s : GoString_) : Option GoStringMap := do
  let strkey := localArray 1024
  let strkey ← sprintf strkey key
  map_set map strkey s

/-- `MapIntObjectSet`, maps.c lines 16-20. -/
def MapIntObjectSet (map : GoObjectMap) (key : Int) (s : Nat) : Option GoObjectMap := do
  let strkey := localArray 1024
  let strkey ← sprintf strkey key
  map_set map strkey s

/-- `MapStringIntSet`, maps.c lines 22-24. The key handed to `map_set` is the
StringValue; its bytes are the key. -/
def MapStringIntSet (map : GoIntMap) (key : GoString_) (n : Int) : Option GoIntMap :=
  map_set map key.str n

/-- `MapStringStringSet`, maps.c lines 26-28. -/
def MapStringStringSet (map : GoStringMap) (key : GoString_) (s : GoString_) :
    Option GoStringMap :=
  map_set map key.str s

/-- `MapStringObjectSet`, maps.c lines 30-32. -/
def MapStringObjectSet (map : GoObjectMap) (key : GoString_) (s : Nat) : Option GoObjectMap :=
  map_set map key.str s

/-- The entries a map holds for the key `k`. -/
def entriesFor {V : Type} (m : KeyedMap V) (k : List Byte) : List (List Byte × V) :=
  m.filter (fun e => decide (e.1 = k))

/-- The number that a string of decimal digits denotes. -/
def parseNat (t : List Byte) : Nat := t.foldl (fun acc c => 10 * acc + (c.val - 48)) 0

/-- Reading a decimal text back as an integer: an optional leading `-`, then
the digits. -/
def parseDecimal : List Byte → Int
  | [] => 0
  | c :: t => if c = 45 then -(parseNat t : Int) else (parseNat (c :: t) : Int)

/-- The canonical key of the spec, in its words: the minimal decimal string of
`k`, base 10, without leading zeros, with a single leading `-` for a negative
value and `"0"` for zero. -/
def IsCanonicalDecimal (k : Int) (t : List Byte) : Prop :=
  ∃ ds : List Byte, ds ≠ [] ∧ (∀ c ∈ ds, 48 ≤ c.val ∧ c.val ≤ 57) ∧
    (ds.head? = some 48 → ds = [48]) ∧ parseNat ds = k.natAbs ∧
    t = if k < 0 then 45 :: ds else ds

/-- The StringValue that holds the canonical decimal form of `k`. -/
def canonicalKey (k : Int) : Option GoString_ := string_init (cstr (decimal k))

/-- A StringValue produced by the library: a result of `string_init`,
`string_concat` or `string_substring`. -/
inductive Produced : GoString_ → Prop
  | init (p : Buf) (s : GoString_) : string_init p = some s → Produced s
  | concat (a b s : GoString_) : string_concat a b = some s → Produced s
  | substring (a : GoString_) (index len : Int) (s : GoString_) :
      string_substring a index len = some s → Produced s

/-! ## The C library routines on terminated buffers -/

theorem ZeroFree.head {c : Byte} {t : List Byte} (h : ZeroFree (c :: t)) : c ≠ 0 :=
  h c (List.mem_cons_self c t)

theorem ZeroFree.tail {c : Byte} {t : List Byte} (h : ZeroFree (c :: t)) : ZeroFree t :=
  fun d hd => h d (List.mem_cons_of_mem c hd)

theorem ZeroFree.append {x y : List Byte} (hx : ZeroFree x) (hy : ZeroFree y) :
    ZeroFree (x ++ y) := by
  intro c hc
  rcases List.mem_append.mp hc with h | h
  · exact hx c h
  · exact hy c h

theorem ZeroFree.drop {x : List Byte} (hx : ZeroFree x) (k : Nat) : ZeroFree (x.drop k) :=
  fun c hc => hx c (List.mem_of_mem_drop hc)

theorem ZeroFree.take {x : List Byte} (hx : ZeroFree x) (k : Nat) : ZeroFree (x.take k) :=
  fun c hc => hx c (List.mem_of_mem_take hc)

theorem content_terminated (x : List Byte) (hx : ZeroFree x) (rest : Buf) :
    content (x.map some ++ some 0 :: rest) = some x := by
  induction x with
  | nil => simp [content]
  | cons c t ih => simp [content, hx.head, ih hx.tail]

theorem content_cstr (x : List Byte) (hx : ZeroFree x) : content (cstr x) = some x :=
  content_terminated x hx []

theorem content_some {p : Buf} {x : List Byte} (h : content p = some x) :
    ZeroFree x ∧ ∃ rest, p = x.map some ++ some 0 :: rest := by
  induction p generalizing x with
  | nil => simp [content] at h
  | cons c t ih =>
    cases c with
    | none => simp [content] at h
    | some b =>
      by_cases hb : b = 0
      · simp [content, hb] at h
        subst h
        exact ⟨fun _ hc => absurd hc (List.not_mem_nil _), t, by simp [hb]⟩
      · simp [content, hb] at h
        obtain ⟨y, hy, rfl⟩ := h
        obtain ⟨h1, rest, h2⟩ := ih hy
        refine ⟨?_, rest, by simp [h2]⟩
        intro c hc
        rcases List.mem_cons.mp hc with h | h
        · exact h ▸ hb
        · exact h1 c h

theorem strlen_terminated (x : List Byte) (hx : ZeroFree x) (rest : Buf) :
    strlen (x.map some ++ some 0 :: rest) = some x.length := by
  induction x with
  | nil => simp [strlen]
  | cons c t ih => simp [strlen, hx.head, ih hx.tail]

theorem strlen_eq_content (p : Buf) : strlen p = (content p).map List.length := by
  induction p with
  | nil => simp [strlen, content]
  | cons c t ih =>
    cases c with
    | none => simp [strlen, content]
    | some b =>
      by_cases hb : b = 0
      · simp [strlen, content, hb]
      · simp [strlen, content, hb, ih, Option.map_map, Function.comp_def]

theorem strlen_some {p : Buf} {n : Nat} (h : strlen p = some n) :
    ∃ x, content p = some x ∧ x.length = n := by
  rw [strlen_eq_content] at h
  cases hc : content p with
  | none => simp [hc] at h
  | some x => exact ⟨x, rfl, by simpa [hc] using h⟩

theorem strcpy_terminated (x : List Byte) (hx : ZeroFree x) (rest dest : Buf)
    (hd : x.length < dest.length) :
    strcpy dest (x.map some ++ some 0 :: rest)
      = some (x.map some ++ some 0 :: dest.drop (x.length + 1)) := by
  induction x generalizing dest with
  | nil =>
    cases dest with
    | nil => simp at hd
    | cons d ds => simp [strcpy]
  | cons c t ih =>
    cases dest with
    | nil => simp at hd
    | cons d ds =>
      have hlen : t.length < ds.length := by simpa using hd
      simp [strcpy, hx.head, ih hx.tail ds hlen]

theorem strcpy_overflow (x : List Byte) (hx : ZeroFree x) (rest dest : Buf)
    (hd : dest.length ≤ x.length) :
    strcpy dest (x.map some ++ some 0 :: rest) = none := by
  induction x generalizing dest with
  | nil =>
    cases dest with
    | nil => simp [strcpy]
    | cons d ds => simp at hd
  | cons c t ih =>
    cases dest with
    | nil => simp [strcpy]
    | cons d ds =>
      have hlen : ds.length ≤ t.length := by simpa using hd
      simp [strcpy, hx.head, ih hx.tail ds hlen]

theorem strcat_terminated (x : List Byte) (hx : ZeroFree x) (rest src : Buf) :
    strcat (x.map some ++ some 0 :: rest) src
      = (strcpy (some 0 :: rest) src).map (x.map some ++ ·) := by
  induction x with
  | nil => simp [strcat]
  | cons c t ih =>
    simp [strcat, hx.head, ih hx.tail, Option.map_map, Function.comp_def]

theorem load_terminated (x : List Byte) (rest : Buf) (i : Nat) (hi : i < x.length) :
    load (x.map some ++ some 0 :: rest) i = some (x.get ⟨i, hi⟩) := by
  have h : (x.map some ++ some 0 :: rest)[i]? = some (some (x.get ⟨i, hi⟩)) := by
    rw [List.getElem?_append_left (by simpa using hi)]
    simp [hi]
  simp only [load, h]

/-! ## Construction and concatenation -/

theorem string_init_spec {p : Buf} {x : List Byte} (h : content p = some x) :
    string_init p = some { str := cstr x, size := x.length } := by
  obtain ⟨hx, rest, rfl⟩ := content_some h
  have hcpy := strcpy_terminated x hx rest (List.replicate (x.length + 1) none) (by simp)
  simp only [List.drop_replicate, Nat.sub_self, List.replicate_zero] at hcpy
  simp [string_init, strlen_terminated x hx, hcpy, malloc, cstr]

theorem string_concat_spec {a b : GoString_} {x y : List Byte}
    (ha : content a.str = some x) (hb : content b.str = some y) :
    string_concat a b = some { str := cstr (x ++ y), size := x.length + y.length } := by
  obtain ⟨hx, ra, hra⟩ := content_some ha
  obtain ⟨hy, rb, hrb⟩ := content_some hb
  have h1 := strcpy_terminated x hx ra (List.replicate (x.length + y.length + 1) none)
    (by simp; omega)
  have hdrop : (List.replicate (x.length + y.length + 1) (none : Cell)).drop (x.length + 1)
      = List.replicate y.length none := by
    simp only [List.drop_replicate]
    congr 1
    omega
  rw [hdrop] at h1
  have h2 := strcat_terminated x hx (List.replicate y.length none) (y.map some ++ some 0 :: rb)
  have h3 := strcpy_terminated y hy rb (some 0 :: List.replicate y.length none) (by simp)
  rw [h3] at h2
  simp only [List.drop_succ_cons, List.drop_replicate, Nat.sub_self, List.replicate_zero,
    Option.map_some'] at h2
  simp [string_concat, hra, hrb, strlen_terminated, hx, hy, malloc, h1, h2, cstr]

theorem string_length_spec {s : GoString_} {x : List Byte} (h : content s.str = some x) :
    string_length s = some (x.length % 2 ^ 32) := by
  simp [string_length, strlen_eq_content, h]

/-! ## Substring -/

theorem ptrAdd_terminated (x : List Byte) (rest : Buf) (i : Nat) (hi : i ≤ x.length) :
    ptrAdd (x.map some ++ some 0 :: rest) (i : Int) = some ((x.drop i).map some ++ some 0 :: rest) := by
  have h1 : (i : Int) ≤ ((x.map some ++ some 0 :: rest).length : Int) := by
    simp only [List.length_append, List.length_map, List.length_cons]
    omega
  have h2 : (x.map some ++ some 0 :: rest).drop i = (x.drop i).map some ++ some 0 :: rest := by
    rw [List.drop_append_of_le_length (by simpa using hi), List.map_drop]
  unfold ptrAdd
  rw [if_pos ⟨Int.ofNat_nonneg i, h1⟩, Int.toNat_ofNat, h2]

theorem content_set_zero (y : List Byte) (hy : ZeroFree y) (rest : Buf) (l : Nat)
    (hl : l ≤ y.length) :
    content ((y.map some ++ some 0 :: rest).set l (some 0)) = some (y.take l) := by
  induction y generalizing l with
  | nil =>
    have : l = 0 := by simpa using hl
    subst this
    simp [content]
  | cons c t ih =>
    cases l with
    | zero => simp [content]
    | succ k =>
      have hk : k ≤ t.length := by simpa using hl
      simp [content, hy.head, ih hy.tail k hk]

theorem string_substring_eval {s : GoString_} {x : List Byte} (index len : Int) (i l : Nat)
    (hs : content s.str = some x) (hn : x.length < 2 ^ 32)
    (hi : index = (i : Int)) (hix : i ≤ x.length) (hl : l ≤ x.length - i)
    (hlen : (if toUInt32 (toInt32 (index + len)) > x.length % 2 ^ 32 then
        toInt32 ((((x.length % 2 ^ 32 : Nat) : Int) - (toUInt32 index : Int)) % 2 ^ 32)
      else len) = (l : Int)) :
    ∃ r, string_substring s index len = some r ∧ r.size = x.length ∧
      content r.str = some ((x.drop i).take l) := by
  obtain ⟨hx, rest, hrest⟩ := content_some hs
  have hmod : x.length % 2 ^ 32 = x.length := Nat.mod_eq_of_lt hn
  rw [hmod] at hlen
  have hcpy := strcpy_terminated (x.drop i) (hx.drop i) rest
    (List.replicate (x.length + 1) none) (by simp; omega)
  generalize hbuf : (x.drop i).map some ++ some 0 ::
      (List.replicate (x.length + 1) (none : Cell)).drop ((x.drop i).length + 1) = buf at hcpy
  have hst : store buf (l : Int) 0 = some (buf.set l (some 0)) := by
    have : (l : Int) < (buf.length : Int) := by
      rw [← hbuf]
      simp only [List.length_append, List.length_map, List.length_cons, List.length_drop]
      omega
    unfold store
    rw [if_pos ⟨Int.ofNat_nonneg l, this⟩, Int.toNat_ofNat]
  have heval : string_substring s index len
      = some { str := buf.set l (some 0), size := x.length } := by
    subst hi
    simp only [string_substring, hrest, strlen_terminated x hx, hmod, hlen, malloc,
      ptrAdd_terminated x rest i hix, hcpy, hst, Option.bind_eq_bind, Option.some_bind,
      Option.pure_def]
  refine ⟨_, heval, rfl, ?_⟩
  rw [← hbuf]
  exact content_set_zero (x.drop i) (hx.drop i) _ l (by simpa using hl)

/-! ## Comparison -/

theorem byte_val_pos {c : Byte} (h : c ≠ 0) : 0 < (c.val : Int) := by
  have : c.val ≠ 0 := fun h0 => h (Fin.ext h0)
  omega

theorem strcmp_terminated (x y : List Byte) (hx : ZeroFree x) (hy : ZeroFree y)
    (r1 r2 : Buf) :
    strcmp (x.map some ++ some 0 :: r1) (y.map some ++ some 0 :: r2) = some (cmpBytes x y) := by
  induction x generalizing y with
  | nil =>
    cases y with
    | nil => simp [strcmp, cmpBytes]
    | cons d v => simp [strcmp, cmpBytes, Ne.symm hy.head]
  | cons c u ih =>
    cases y with
    | nil => simp [strcmp, cmpBytes, hx.head]
    | cons d v =>
      by_cases hcd : c = d
      · subst hcd
        simp [strcmp, cmpBytes, hx.head, ih v hx.tail hy.tail]
      · simp [strcmp, cmpBytes, hcd]

theorem strcmp_content {a b : Buf} {x y : List Byte} (ha : content a = some x)
    (hb : content b = some y) : strcmp a b = some (cmpBytes x y) := by
  obtain ⟨hx, ra, rfl⟩ := content_some ha
  obtain ⟨hy, rb, rfl⟩ := content_some hb
  exact strcmp_terminated x y hx hy ra rb

theorem cmpBytes_self (x : List Byte) : cmpBytes x x = 0 := by
  induction x with
  | nil => simp [cmpBytes]
  | cons c u ih => simp [cmpBytes, ih]

theorem cmpBytes_swap (x y : List Byte) : cmpBytes y x = -cmpBytes x y := by
  induction x generalizing y with
  | nil => cases y <;> simp [cmpBytes]
  | cons c u ih =>
    cases y with
    | nil => simp [cmpBytes]
    | cons d v =>
      by_cases hcd : c = d
      · subst hcd
        simp [cmpBytes, ih v]
      · have hdc : d ≠ c := fun h => hcd h.symm
        simp [cmpBytes, hcd, hdc]

theorem cmpBytes_eq_zero {x y : List Byte} (hx : ZeroFree x) (hy : ZeroFree y) :
    cmpBytes x y = 0 ↔ x = y := by
  induction x generalizing y with
  | nil =>
    cases y with
    | nil => simp [cmpBytes]
    | cons d v =>
      have := byte_val_pos hy.head
      simp only [cmpBytes, List.nil_eq, reduceCtorEq, iff_false]
      omega
  | cons c u ih =>
    cases y with
    | nil =>
      have := byte_val_pos hx.head
      simp only [cmpBytes, reduceCtorEq, iff_false]
      omega
    | cons d v =>
      by_cases hcd : c = d
      · subst hcd
        simp [cmpBytes, ih hx.tail hy.tail]
      · have hv : c.val ≠ d.val := fun h => hcd (Fin.ext h)
        simp only [cmpBytes, ne_eq, hcd, not_false_eq_true, if_true, List.cons.injEq, false_and,
          iff_false]
        omega

theorem cmpBytes_trans {x y z : List Byte} (hx : ZeroFree x) (hy : ZeroFree y)
    (hz : ZeroFree z) (h1 : cmpBytes x y < 0) (h2 : cmpBytes y z < 0) : cmpBytes x z < 0 := by
  induction x generalizing y z with
  | nil =>
    cases z with
    | nil =>
      cases y with
      | nil => simp [cmpBytes] at h1
      | cons d v =>
        simp only [cmpBytes] at h2
        omega
    | cons e w =>
      have := byte_val_pos hz.head
      simp only [cmpBytes]
      omega
  | cons c u ih =>
    cases y with
    | nil =>
      simp only [cmpBytes] at h1
      omega
    | cons d v =>
      cases z with
      | nil =>
        simp only [cmpBytes] at h2
        omega
      | cons e w =>
        by_cases hcd : c = d
        · by_cases hde : d = e
          · subst hcd
            subst hde
            simp only [cmpBytes, ne_eq, not_true_eq_false, if_false] at h1 h2 ⊢
            exact ih hx.tail hy.tail hz.tail h1 h2
          · subst hcd
            simp only [cmpBytes, ne_eq, hde, not_false_eq_true, if_true] at h2 ⊢
            exact h2
        · by_cases hde : d = e
          · subst hde
            simp only [cmpBytes, ne_eq, hcd, not_false_eq_true, if_true] at h1 ⊢
            exact h1
          · simp only [cmpBytes, ne_eq, hcd, hde, not_false_eq_true, if_true] at h1 h2
            have hce : c ≠ e := by
              intro h
              subst h
              omega
            simp only [cmpBytes, ne_eq, hce, not_false_eq_true, if_true]
            omega

theorem cmpBytes_neg_iff {x y : List Byte} (hx : ZeroFree x) (hy : ZeroFree y) :
    cmpBytes x y < 0 ↔ LexLess x y := by
  induction x generalizing y with
  | nil =>
    cases y with
    | nil =>
      simp only [cmpBytes, lt_self_iff_false, false_iff]
      rintro (⟨t, ht, h⟩ | ⟨p, c, d, u, v, h, _⟩)
      · exact ht (by simpa using h.symm)
      · simp at h
    | cons d v =>
      have := byte_val_pos hy.head
      constructor
      · intro _
        exact Or.inl ⟨d :: v, by simp, by simp⟩
      · intro _
        simp only [cmpBytes]
        omega
  | cons c u ih =>
    cases y with
    | nil =>
      have := byte_val_pos hx.head
      constructor
      · intro h
        simp only [cmpBytes] at h
        omega
      · rintro (⟨t, _, h⟩ | ⟨p, c1, d1, u1, v1, _, h, _⟩)
        · simp at h
        · simp at h
    | cons d v =>
      by_cases hcd : c = d
      · subst hcd
        simp only [cmpBytes, ne_eq, not_true_eq_false, if_false]
        rw [ih hx.tail hy.tail]
        constructor
        · rintro (⟨t, ht, h⟩ | ⟨p, c1, d1, u1, v1, h1, h2, h3⟩)
          · exact Or.inl ⟨t, ht, by simp [h]⟩
          · exact Or.inr ⟨c :: p, c1, d1, u1, v1, by simp [h1], by simp [h2], h3⟩
        · rintro (⟨t, ht, h⟩ | ⟨p, c1, d1, u1, v1, h1, h2, h3⟩)
          · exact Or.inl ⟨t, ht, by simpa using h⟩
          · cases p with
            | nil =>
              simp only [List.nil_append, List.cons.injEq] at h1 h2
              obtain ⟨rfl, _⟩ := h1
              obtain ⟨rfl, _⟩ := h2
              exact absurd h3 (lt_irrefl _)
            | cons q p =>
              simp only [List.cons_append, List.cons.injEq] at h1 h2
              exact Or.inr ⟨p, c1, d1, u1, v1, h1.2, h2.2, h3⟩
      · simp only [cmpBytes, ne_eq, hcd, not_false_eq_true, if_true]
        constructor
        · intro h
          have hlt : c < d := by
            rw [Fin.lt_def]
            omega
          exact Or.inr ⟨[], c, d, u, v, rfl, rfl, hlt⟩
        · rintro (⟨t, ht, h⟩ | ⟨p, c1, d1, u1, v1, h1, h2, h3⟩)
          · simp only [List.cons_append, List.cons.injEq] at h
            exact absurd h.1.symm hcd
          · cases p with
            | nil =>
              simp only [List.nil_append, List.cons.injEq] at h1 h2
              obtain ⟨rfl, _⟩ := h1
              obtain ⟨rfl, _⟩ := h2
              rw [Fin.lt_def] at h3
              omega
            | cons q p =>
              simp only [List.cons_append, List.cons.injEq] at h1 h2
              exact absurd (h1.1.trans h2.1.symm) hcd

/-! ## Values of the predicates -/

theorem boolToInt_eq_one (c : Bool) : boolToInt c = 1 ↔ c = true := by
  cases c <;> simp [boolToInt]

theorem boolToInt_eq_zero (c : Bool) : boolToInt c = 0 ↔ c = false := by
  cases c <;> simp [boolToInt]

theorem string_is_equal_eval {a b : GoString_} {x y : List Byte}
    (ha : content a.str = some x) (hb : content b.str = some y) :
    string_is_equal a b = some (boolToInt (decide (cmpBytes x y = 0))) := by
  simp [string_is_equal, strcmp_content ha hb]

theorem string_is_greater_eval {a b : GoString_} {x y : List Byte}
    (ha : content a.str = some x) (hb : content b.str = some y) :
    string_is_greater a b = some (boolToInt (decide (cmpBytes x y > 0))) := by
  simp [string_is_greater, strcmp_content ha hb]

theorem string_is_lesser_eval {a b : GoString_} {x y : List Byte}
    (ha : content a.str = some x) (hb : content b.str = some y) :
    string_is_lesser a b = some (boolToInt (decide (cmpBytes x y < 0))) := by
  simp [string_is_lesser, strcmp_content ha hb]

theorem string_is_greater_than_or_equal_eval {a b : GoString_} {x y : List Byte}
    (ha : content a.str = some x) (hb : content b.str = some y) :
    string_is_greater_than_or_equal a b = some (boolToInt (decide (cmpBytes x y ≥ 0))) := by
  simp [string_is_greater_than_or_equal, strcmp_content ha hb]

theorem string_is_lesser_than_or_equal_eval {a b : GoString_} {x y : List Byte}
    (ha : content a.str = some x) (hb : content b.str = some y) :
    string_is_lesser_than_or_equal a b = some (boolToInt (decide (cmpBytes x y ≤ 0))) := by
  simp [string_is_lesser_than_or_equal, strcmp_content ha hb]

theorem zeroFree_replicate_one (n : Nat) : ZeroFree (List.replicate n (1 : Byte)) := by
  intro c hc
  rw [List.eq_of_mem_replicate hc]
  decide

theorem toUInt32_toInt32 (z : Int) : toUInt32 (toInt32 z) = toUInt32 z := by
  unfold toUInt32 toInt32
  omega

/-! ## The claims -/

/-- C1: for zero-free byte sequences `a` and `b`, the concatenation of
`string_init a` and `string_init b` has as content the bytes of `a` followed
by the bytes of `b`, and `string_is_equal` finds it equal to
`string_init (a ++ b)`. -/
theorem string_concat_init_content (a b : List Byte) (ha : ZeroFree a) (hb : ZeroFree b) :
    ∃ sa sb sc sab, string_init (cstr a) = some sa ∧ string_init (cstr b) = some sb ∧
      string_concat sa sb = some sc ∧ content sc.str = some (a ++ b) ∧
      string_init (cstr (a ++ b)) = some sab ∧ string_is_equal sc sab = some 1 := by
  have hab : ZeroFree (a ++ b) := ha.append hb
  have hc : content (cstr (a ++ b)) = some (a ++ b) := content_cstr _ hab
  refine ⟨_, _, _, _, string_init_spec (content_cstr a ha), string_init_spec (content_cstr b hb),
    string_concat_spec (content_cstr a ha) (content_cstr b hb), hc, string_init_spec hc, ?_⟩
  rw [string_is_equal_eval hc hc, cmpBytes_self]
  rfl

/-- Witness of C1: `concat(init "foo", init "bar")` equals `init "foobar"`. -/
theorem string_concat_init_content_witness :
    ZeroFree (bytes "foo") ∧ ZeroFree (bytes "bar") ∧
    ∃ sa sb sc sab, string_init (cstr (bytes "foo")) = some sa ∧
      string_init (cstr (bytes "bar")) = some sb ∧
      string_concat sa sb = some sc ∧ content sc.str = some (bytes "foobar") ∧
      string_init (cstr (bytes "foobar")) = some sab ∧ string_is_equal sc sab = some 1 :=
  ⟨by decide, by decide,
    string_concat_init_content (bytes "foo") (bytes "bar") (by decide) (by decide)⟩

theorem content_large : content (cstr (List.replicate (2 ^ 32) (1 : Byte)))
    = some (List.replicate (2 ^ 32) 1) :=
  content_cstr _ (zeroFree_replicate_one _)

theorem content_half : content (cstr (List.replicate (2 ^ 31) (1 : Byte)))
    = some (List.replicate (2 ^ 31) 1) :=
  content_cstr _ (zeroFree_replicate_one _)

theorem concat_of_half_range (r : List Byte) (h : content (cstr r) = some r)
    (hl : r.length = 2 ^ 31) :
    ∃ c, string_concat { str := cstr r, size := 2 ^ 31 } { str := cstr r, size := 2 ^ 31 }
        = some c ∧
      string_length { str := cstr r, size := 2 ^ 31 } = some (2 ^ 31) ∧
      string_length c = some 0 ∧ c.size = 2 ^ 32 := by
  have hz : ZeroFree r := (content_some h).1
  refine ⟨_, string_concat_spec h h, ?_, ?_, ?_⟩
  · rw [string_length_spec h, hl]
    norm_num
  · rw [string_length_spec (content_cstr _ (hz.append hz)), List.length_append, hl]
    norm_num
  · simp only [hl]
    norm_num

/-- C2, as stated, fails: two StringValues of 2^31 bytes each have
`string_length` 2^31, while their concatenation has `string_length` 0 and
`size` 2^32; the count 2^32 is outside the range of the `unsigned int` that
`string_length` returns. -/
theorem string_length_concat_wraps :
    ∃ c, string_concat { str := cstr (List.replicate (2 ^ 31) 1), size := 2 ^ 31 }
        { str := cstr (List.replicate (2 ^ 31) 1), size := 2 ^ 31 } = some c ∧
      string_length { str := cstr (List.replicate (2 ^ 31) 1), size := 2 ^ 31 } = some (2 ^ 31) ∧
      string_length c = some 0 ∧ c.size = 2 ^ 32 :=
  concat_of_half_range _ content_half (List.length_replicate _ _)

/-- C2, amended: for StringValues `a` and `b` whose lengths add up to less
than 2^32, `string_length (string_concat a b)` is
`string_length a + string_length b`, and the `size` field of the result holds
the same value. -/
theorem string_length_concat_in_range (a b : GoString_) (la lb : Nat)
    (ha : strlen a.str = some la) (hb : strlen b.str = some lb) (hfit : la + lb < 2 ^ 32) :
    ∃ c, string_concat a b = some c ∧ string_length a = some la ∧ string_length b = some lb ∧
      string_length c = some (la + lb) ∧ c.size = la + lb := by
  obtain ⟨x, hx, rfl⟩ := strlen_some ha
  obtain ⟨y, hy, rfl⟩ := strlen_some hb
  have hc : content (cstr (x ++ y)) = some (x ++ y) :=
    content_cstr _ ((content_some hx).1.append (content_some hy).1)
  refine ⟨_, string_concat_spec hx hy, ?_, ?_, ?_, rfl⟩
  · rw [string_length_spec hx, Nat.mod_eq_of_lt (by omega)]
  · rw [string_length_spec hy, Nat.mod_eq_of_lt (by omega)]
  · rw [string_length_spec hc, List.length_append, Nat.mod_eq_of_lt hfit]

/-- Witness of C2 (amended) on "foo" and "bar". -/
theorem string_length_concat_in_range_witness :
    ∃ c, string_concat { str := cstr (bytes "foo"), size := 3 }
        { str := cstr (bytes "bar"), size := 3 } = some c ∧
      string_length { str := cstr (bytes "foo"), size := 3 } = some 3 ∧
      string_length { str := cstr (bytes "bar"), size := 3 } = some 3 ∧
      string_length c = some (3 + 3) ∧ c.size = 3 + 3 :=
  string_length_concat_in_range _ _ 3 3 (by decide) (by decide) (by norm_num)

/-- C3 fails on `string_substring`: for `s = string_init "hello"`,
`string_substring s 1 3` has content "ell" and `string_length` 3, but its
`size` field is 5, the length of `s`. -/
theorem string_substring_size_mismatch :
    string_init (cstr (bytes "hello")) = some { str := cstr (bytes "hello"), size := 5 } ∧
    string_substring { str := cstr (bytes "hello"), size := 5 } 1 3
      = some { str := [some 101, some 108, some 108, some 0, some 0, none], size := 5 } ∧
    content [some 101, some 108, some 108, some 0, some 0, none] = some (bytes "ell") ∧
    string_length { str := [some 101, some 108, some 108, some 0, some 0, none], size := 5 }
      = some 3 := by
  decide

/-- C4: for a StringValue `s` of length `n`, an `int` index with
`0 ≤ index ≤ n` and an `int` `len ≥ 0` with `index + len > n`,
`string_substring s index len` returns a value whose `string_length` is
`n - index`, which is not `len`. -/
theorem string_substring_clamped (s : GoString_) (n : Nat) (index len : Int)
    (hs : strlen s.str = some n) (hindex : IsInt index) (hlen : IsInt len)
    (h0 : 0 ≤ index) (h1 : index ≤ n) (h2 : 0 ≤ len) (h3 : index + len > n) :
    ∃ r, string_substring s index len = some r ∧
      string_length r = some (n - index.toNat) ∧ ((n - index.toNat : Nat) : Int) ≠ len := by
  obtain ⟨x, hx, rfl⟩ := strlen_some hs
  obtain ⟨_, hi2⟩ := hindex
  obtain ⟨_, hl2⟩ := hlen
  have hn : x.length < 2 ^ 32 := by omega
  have hmod : x.length % 2 ^ 32 = x.length := Nat.mod_eq_of_lt hn
  have hcl : (if toUInt32 (toInt32 (index + len)) > x.length % 2 ^ 32 then
        toInt32 ((((x.length % 2 ^ 32 : Nat) : Int) - (toUInt32 index : Int)) % 2 ^ 32)
      else len) = ((x.length - index.toNat : Nat) : Int) := by
    rw [toUInt32_toInt32, hmod]
    unfold toUInt32 toInt32
    split_ifs with hc <;> omega
  obtain ⟨r, hr, _, hcont⟩ := string_substring_eval index len index.toNat
    (x.length - index.toNat) hx hn (by omega) (by omega) (le_refl _) hcl
  refine ⟨r, hr, ?_, by omega⟩
  rw [string_length_spec hcont, List.length_take, List.length_drop, Nat.min_self,
    Nat.mod_eq_of_lt (by omega)]

/-- Witness of C4: `substring(init "hello", 1, 2147483647)` has length 4. -/
theorem string_substring_clamped_witness :
    ∃ r, string_substring { str := cstr (bytes "hello"), size := 5 } 1 2147483647 = some r ∧
      string_length r = some (5 - (1 : Int).toNat) ∧
      ((5 - (1 : Int).toNat : Nat) : Int) ≠ 2147483647 :=
  string_substring_clamped _ 5 1 2147483647 (by decide) (by decide) (by decide) (by decide)
    (by decide) (by decide) (by decide)

theorem string_substring_overflow {s : GoString_} {x : List Byte} (index len : Int) (i : Nat)
    (hs : content s.str = some x) (hi : index = (i : Int)) (hix : i ≤ x.length)
    (hbig : x.length % 2 ^ 32 + i < x.length) :
    string_substring s index len = none := by
  obtain ⟨hx, rest, hrest⟩ := content_some hs
  have hcpy := strcpy_overflow (x.drop i) (hx.drop i) rest
    (List.replicate (x.length % 2 ^ 32 + 1) none) (by simp; omega)
  subst hi
  simp only [string_substring, hrest, strlen_terminated x hx, malloc,
    ptrAdd_terminated x rest i hix, hcpy, Option.bind_eq_bind, Option.some_bind,
    Option.none_bind]

theorem substring_fails_of_length (r : List Byte) (h : content (cstr r) = some r)
    (hl : r.length = 2 ^ 32) :
    strlen (cstr r) = some (2 ^ 32) ∧
    string_substring { str := cstr r, size := 2 ^ 32 } 0 0 = none := by
  refine ⟨?_, string_substring_overflow 0 0 0 h rfl (Nat.zero_le _) ?_⟩
  · rw [strlen_eq_content, h, Option.map_some', hl]
  · rw [hl]
    norm_num

/-- C5, as stated, fails: on a StringValue of 2^32 bytes, `index = 0` and
`len = 0` satisfy `index + len ≤ length(s)`, but `string_substring` keeps the
length in an `unsigned int`, where it is 0, allocates 1 byte and runs out of
it while copying: no value is returned. -/
theorem string_substring_long_fails :
    strlen (cstr (List.replicate (2 ^ 32) 1)) = some (2 ^ 32) ∧
    string_substring { str := cstr (List.replicate (2 ^ 32) 1), size := 2 ^ 32 } 0 0 = none :=
  substring_fails_of_length _ content_large (List.length_replicate _ _)

/-- C5, amended: for a StringValue `s` whose length is below 2^32, and
`index ≥ 0`, `len ≥ 0` with `index + len ≤ length(s)`,
`string_substring s index len` has as content exactly the `len` bytes of `s`
at positions `index .. index+len-1`, and is `string_is_equal` to the
`string_init` of those bytes. -/
theorem string_substring_content (s : GoString_) (x : List Byte) (index len : Int)
    (hs : content s.str = some x) (hfit : x.length < 2 ^ 32)
    (h0 : 0 ≤ index) (h1 : 0 ≤ len) (h2 : index + len ≤ x.length) :
    ∃ r e, string_substring s index len = some r ∧
      content r.str = some ((x.drop index.toNat).take len.toNat) ∧
      (((x.drop index.toNat).take len.toNat).length : Int) = len ∧
      string_init (cstr ((x.drop index.toNat).take len.toNat)) = some e ∧
      string_is_equal r e = some 1 := by
  have hmod : x.length % 2 ^ 32 = x.length := Nat.mod_eq_of_lt hfit
  have hcl : (if toUInt32 (toInt32 (index + len)) > x.length % 2 ^ 32 then
        toInt32 ((((x.length % 2 ^ 32 : Nat) : Int) - (toUInt32 index : Int)) % 2 ^ 32)
      else len) = (len.toNat : Int) := by
    rw [toUInt32_toInt32, hmod]
    unfold toUInt32 toInt32
    split_ifs with hc <;> omega
  obtain ⟨r, hr, _, hcont⟩ := string_substring_eval index len index.toNat len.toNat hs hfit
    (by omega) (by omega) (by omega) hcl
  have hz : ZeroFree ((x.drop index.toNat).take len.toNat) :=
    ((content_some hs).1.drop _).take _
  have he := content_cstr _ hz
  refine ⟨r, _, hr, hcont, ?_, string_init_spec he, ?_⟩
  · rw [List.length_take, List.length_drop]
    omega
  · rw [string_is_equal_eval hcont he, cmpBytes_self]
    rfl

/-- Witness of C5: `substring(init "hello", 1, 3)` is equal to `init "ell"`. -/
theorem string_substring_content_witness :
    ∃ r e, string_substring { str := cstr (bytes "hello"), size := 5 } 1 3 = some r ∧
      content r.str = some (bytes "ell") ∧
      ((bytes "ell").length : Int) = 3 ∧
      string_init (cstr (bytes "ell")) = some e ∧
      string_is_equal r e = some 1 :=
  string_substring_content { str := cstr (bytes "hello"), size := 5 } (bytes "hello") 1 3
    (by decide) (by decide) (by decide) (by decide) (by decide)

/-- C6: for a StringValue `s` and an unsigned index `i`, `string_charAt s i`
is the `i`-th byte of `s` when `i < length(s)`, and 0 when `i ≥ length(s)`. -/
theorem string_charAt_spec (s : GoString_) (x : List Byte) (i : Nat)
    (hs : content s.str = some x) :
    (∀ h : i < x.length, string_charAt s i = some (x.get ⟨i, h⟩)) ∧
    (x.length ≤ i → string_charAt s i = some 0) := by
  obtain ⟨hx, rest, hrest⟩ := content_some hs
  constructor
  · intro h
    simp only [string_charAt, hrest, strlen_terminated x hx, Option.bind_eq_bind,
      Option.some_bind, if_pos h, load_terminated x rest i h]
  · intro h
    simp only [string_charAt, hrest, strlen_terminated x hx, Option.bind_eq_bind,
      Option.some_bind, if_neg (Nat.not_lt.mpr h), Option.pure_def]

/-- Witness of C6: in "hello", position 1 holds `e` and position 5 reads 0. -/
theorem string_charAt_spec_witness :
    string_charAt { str := cstr (bytes "hello"), size := 5 } 1 = some 101 ∧
    string_charAt { str := cstr (bytes "hello"), size := 5 } 5 = some 0 :=
  ⟨(string_charAt_spec { str := cstr (bytes "hello"), size := 5 } (bytes "hello") 1
      (by decide)).1 (by decide),
   (string_charAt_spec { str := cstr (bytes "hello"), size := 5 } (bytes "hello") 5
      (by decide)).2 (by decide)⟩

theorem init_of_long_input (r : List Byte) (h : content (cstr r) = some r)
    (hl : r.length = 2 ^ 32) :
    ∃ s, string_init (cstr r) = some s ∧ content s.str = some r ∧ s.size = 2 ^ 32 ∧
      string_length s = some 0 := by
  refine ⟨_, string_init_spec h, h, hl, ?_⟩
  rw [string_length_spec h, hl]
  norm_num

/-- C7, as stated, fails: for an input of 2^32 non-zero bytes and a
terminator, the value `string_init` returns has those 2^32 bytes as content
and `size` 2^32, but `string_length` of it is 0. -/
theorem string_init_long :
    ∃ s, string_init (cstr (List.replicate (2 ^ 32) 1)) = some s ∧
      content s.str = some (List.replicate (2 ^ 32) 1) ∧ s.size = 2 ^ 32 ∧
      string_length s = some 0 :=
  init_of_long_input _ content_large (List.length_replicate _ _)

/-- C7, amended: for every input `p` with a zero byte, `string_init p` has as
content exactly the bytes of `p` before its first zero byte and its `size`
field is the count of those bytes; `string_length` of it is that count
reduced modulo 2^32, so it equals the count whenever the count is below
2^32. -/
theorem string_init_content (p : Buf) (x : List Byte) (hp : content p = some x) :
    ∃ s, string_init p = some s ∧ content s.str = some x ∧ s.size = x.length ∧
      string_length s = some (x.length % 2 ^ 32) ∧
      (x.length < 2 ^ 32 → string_length s = some x.length) := by
  have hz := (content_some hp).1
  have hc := content_cstr x hz
  refine ⟨_, string_init_spec hp, hc, rfl, string_length_spec hc, ?_⟩
  intro hfit
  rw [string_length_spec hc, Nat.mod_eq_of_lt hfit]

/-- Witness of C7 (amended): `string_init` on the buffer `h i \0 x \0` keeps
"hi", with `size` and `string_length` 2. -/
theorem string_init_content_witness :
    ∃ s, string_init [some 104, some 105, some 0, some 120, some 0] = some s ∧
      content s.str = some [104, 105] ∧ s.size = [(104 : Byte), 105].length ∧
      string_length s = some ([(104 : Byte), 105].length % 2 ^ 32) ∧
      ([(104 : Byte), 105].length < 2 ^ 32 → string_length s = some [(104 : Byte), 105].length) :=
  string_init_content [some 104, some 105, some 0, some 120, some 0] [104, 105] (by decide)

/-- C8: the comparison is a total order. For StringValues `a`, `b`, `c`:
`string_is_equal a a` is true; `string_is_lesser` is irreflexive, transitive
and antisymmetric; exactly one of lesser, equal, greater holds of `a`, `b`;
and values with different contents are ordered one way or the other. -/
theorem string_compare_total_order (a b c : GoString_) (x y z : List Byte)
    (ha : content a.str = some x) (hb : content b.str = some y) (hc : content c.str = some z) :
    string_is_equal a a = some 1 ∧
    string_is_lesser a a = some 0 ∧
    (string_is_lesser a b = some 1 → string_is_lesser b c = some 1 →
      string_is_lesser a c = some 1) ∧
    ¬ (string_is_lesser a b = some 1 ∧ string_is_lesser b a = some 1) ∧
    ((string_is_lesser a b = some 1 ∧ string_is_equal a b = some 0 ∧
        string_is_greater a b = some 0) ∨
      (string_is_lesser a b = some 0 ∧ string_is_equal a b = some 1 ∧
        string_is_greater a b = some 0) ∨
      (string_is_lesser a b = some 0 ∧ string_is_equal a b = some 0 ∧
        string_is_greater a b = some 1)) ∧
    (x ≠ y → string_is_lesser a b = some 1 ∨ string_is_lesser b a = some 1) := by
  have hx := (content_some ha).1
  have hy := (content_some hb).1
  have hz := (content_some hc).1
  have hsw := cmpBytes_swap x y
  rw [string_is_equal_eval ha ha, string_is_lesser_eval ha ha, string_is_lesser_eval ha hb,
    string_is_lesser_eval hb hc, string_is_lesser_eval ha hc, string_is_lesser_eval hb ha,
    string_is_equal_eval ha hb, string_is_greater_eval ha hb, cmpBytes_self]
  simp only [Option.some.injEq, boolToInt_eq_one, boolToInt_eq_zero, decide_eq_true_eq,
    decide_eq_false_iff_not]
  refine ⟨trivial, lt_irrefl _, fun h1 h2 => cmpBytes_trans hx hy hz h1 h2, ?_, ?_, ?_⟩
  · omega
  · omega
  · intro hne
    have : cmpBytes x y ≠ 0 := fun h => hne ((cmpBytes_eq_zero hx hy).mp h)
    omega

/-- Witness of C8 on "abc", "abd" and "b". -/
theorem string_compare_total_order_witness :
    string_is_equal { str := cstr (bytes "abc"), size := 3 }
      { str := cstr (bytes "abc"), size := 3 } = some 1 ∧
    string_is_lesser { str := cstr (bytes "abc"), size := 3 }
      { str := cstr (bytes "abc"), size := 3 } = some 0 ∧
    string_is_lesser { str := cstr (bytes "abc"), size := 3 }
      { str := cstr (bytes "b"), size := 1 } = some 1 :=
  have h := string_compare_total_order { str := cstr (bytes "abc"), size := 3 }
    { str := cstr (bytes "abd"), size := 3 } { str := cstr (bytes "b"), size := 1 }
    (bytes "abc") (bytes "abd") (bytes "b") (by decide) (by decide) (by decide)
  ⟨h.1, h.2.1, h.2.2.1 (by decide) (by decide)⟩

/-- C9: the ordering is lexicographic on bytes as unsigned values. For
StringValues `a`, `b` with contents `x`, `y`: `string_is_lesser a b` holds iff
`x` is a proper prefix of `y` or the byte of `x` at the first differing
position is the smaller one; `string_is_greater a b` holds iff the same is
true of `y` against `x`; `string_is_equal a b` holds iff `x = y`. -/
theorem string_is_lesser_lexicographic (a b : GoString_) (x y : List Byte)
    (ha : content a.str = some x) (hb : content b.str = some y) :
    (string_is_lesser a b = some 1 ↔ LexLess x y) ∧
    (string_is_lesser a b = some 0 ↔ ¬ LexLess x y) ∧
    (string_is_greater a b = some 1 ↔ LexLess y x) ∧
    (string_is_equal a b = some 1 ↔ x = y) := by
  have hx := (content_some ha).1
  have hy := (content_some hb).1
  have hsw := cmpBytes_swap x y
  rw [string_is_lesser_eval ha hb, string_is_greater_eval ha hb, string_is_equal_eval ha hb,
    ← cmpBytes_neg_iff hx hy, ← cmpBytes_neg_iff hy hx, ← cmpBytes_eq_zero hx hy]
  refine ⟨?_, ?_, ?_, ?_⟩ <;>
    simp only [Option.some.injEq, boolToInt_eq_one, boolToInt_eq_zero, decide_eq_true_eq,
      decide_eq_false_iff_not]
  omega

/-- Witness of C9: "abc" against "abd" is Less, reversed it is Greater, and
"abc" against itself is Equal. -/
theorem string_is_lesser_lexicographic_witness :
    string_is_lesser { str := cstr (bytes "abc"), size := 3 }
      { str := cstr (bytes "abd"), size := 3 } = some 1 ∧
    string_is_greater { str := cstr (bytes "abd"), size := 3 }
      { str := cstr (bytes "abc"), size := 3 } = some 1 ∧
    string_is_equal { str := cstr (bytes "abc"), size := 3 }
      { str := cstr (bytes "abc"), size := 3 } = some 1 :=
  have hlt : LexLess (bytes "abc") (bytes "abd") :=
    Or.inr ⟨bytes "ab", 99, 100, [], [], by decide, by decide, by decide⟩
  ⟨(string_is_lesser_lexicographic _ _ (bytes "abc") (bytes "abd") (by decide)
      (by decide)).1.mpr hlt,
   (string_is_lesser_lexicographic _ _ (bytes "abd") (bytes "abc") (by decide)
      (by decide)).2.2.1.mpr hlt,
   (string_is_lesser_lexicographic _ _ (bytes "abc") (bytes "abc") (by decide)
      (by decide)).2.2.2.mpr rfl⟩

/-- C10: for StringValues `a`, `b` with contents `x`, `y`: `string_is_equal`
is true iff neither lesser nor greater holds, iff `x = y`;
greater_than_or_equal iff greater or equal, iff not lesser;
lesser_than_or_equal iff lesser or equal, iff not greater; and
`string_is_greater a b` iff `string_is_lesser b a`. -/
theorem string_predicates_agree (a b : GoString_) (x y : List Byte)
    (ha : content a.str = some x) (hb : content b.str = some y) :
    (string_is_equal a b = some 1 ↔
      (string_is_lesser a b = some 0 ∧ string_is_greater a b = some 0)) ∧
    (string_is_equal a b = some 1 ↔ x = y) ∧
    (string_is_greater_than_or_equal a b = some 1 ↔
      (string_is_greater a b = some 1 ∨ string_is_equal a b = some 1)) ∧
    (string_is_greater_than_or_equal a b = some 1 ↔ string_is_lesser a b = some 0) ∧
    (string_is_lesser_than_or_equal a b = some 1 ↔
      (string_is_lesser a b = some 1 ∨ string_is_equal a b = some 1)) ∧
    (string_is_lesser_than_or_equal a b = some 1 ↔ string_is_greater a b = some 0) ∧
    (string_is_greater a b = some 1 ↔ string_is_lesser b a = some 1) := by
  have hx := (content_some ha).1
  have hy := (content_some hb).1
  have hsw := cmpBytes_swap x y
  rw [string_is_lesser_eval ha hb, string_is_greater_eval ha hb, string_is_equal_eval ha hb,
    string_is_greater_than_or_equal_eval ha hb, string_is_lesser_than_or_equal_eval ha hb,
    string_is_lesser_eval hb ha, ← cmpBytes_eq_zero hx hy]
  refine ⟨?_, ?_, ?_, ?_, ?_, ?_, ?_⟩ <;>
    simp only [Option.some.injEq, boolToInt_eq_one, boolToInt_eq_zero, decide_eq_true_eq,
      decide_eq_false_iff_not] <;>
    omega

/-- Witness of C10 on "abc" and "abd". -/
theorem string_predicates_agree_witness :
    string_is_greater_than_or_equal { str := cstr (bytes "abd"), size := 3 }
      { str := cstr (bytes "abc"), size := 3 } = some 1 ∧
    string_is_lesser_than_or_equal { str := cstr (bytes "abc"), size := 3 }
      { str := cstr (bytes "abd"), size := 3 } = some 1 ∧
    string_is_greater { str := cstr (bytes "abd"), size := 3 }
      { str := cstr (bytes "abc"), size := 3 } = some 1 :=
  ⟨(string_predicates_agree _ _ (bytes "abd") (bytes "abc") (by decide)
      (by decide)).2.2.2.1.mpr (by decide),
   (string_predicates_agree _ _ (bytes "abc") (bytes "abd") (by decide)
      (by decide)).2.2.2.2.2.1.mpr (by decide),
   (string_predicates_agree _ _ (bytes "abd") (bytes "abc") (by decide)
      (by decide)).2.2.2.2.2.2.mpr (by decide)⟩

/-! ## Decimal text -/

theorem digitChar_val {d : Nat} (h : d < 10) : (digitChar d).val = 48 + d := by
  simp only [digitChar, Fin.ofNat, Nat.succ_eq_add_one]
  omega

theorem parseNat_append_singleton (t : List Byte) (c : Byte) :
    parseNat (t ++ [c]) = 10 * parseNat t + (c.val - 48) := by
  simp [parseNat, List.foldl_append]

theorem natDigits_spec (fuel n : Nat) (h : n < fuel) :
    natDigits fuel n ≠ [] ∧ (∀ c ∈ natDigits fuel n, 48 ≤ c.val ∧ c.val ≤ 57) ∧
    ((natDigits fuel n).head? = some 48 → natDigits fuel n = [48]) ∧
    parseNat (natDigits fuel n) = n ∧
    (∀ j, 0 < j → n < 10 ^ j → (natDigits fuel n).length ≤ j) := by
  induction fuel generalizing n with
  | zero => omega
  | succ fuel ih =>
    by_cases hn : n < 10
    · have hv := digitChar_val hn
      simp only [natDigits, if_pos hn]
      refine ⟨by simp, ?_, ?_, ?_, ?_⟩
      · intro c hc
        rw [List.mem_singleton.mp hc]
        omega
      · intro hh
        simp only [List.head?_cons, Option.some.injEq] at hh
        rw [hh]
      · simp [parseNat, hv]
      · intro j hj _
        simpa using hj
    · have hlt : n / 10 < fuel := by omega
      obtain ⟨h1, h2, h3, h4, h5⟩ := ih (n / 10) hlt
      have hv := digitChar_val (Nat.mod_lt n (by norm_num : 10 > 0))
      simp only [natDigits, if_neg hn]
      refine ⟨by simp, ?_, ?_, ?_, ?_⟩
      · intro c hc
        rcases List.mem_append.mp hc with hc | hc
        · exact h2 c hc
        · rw [List.mem_singleton.mp hc]
          omega
      · intro hh
        rw [List.head?_append_of_ne_nil _ h1] at hh
        have h0 := h3 hh
        rw [h0] at h4
        simp [parseNat] at h4
        omega
      · rw [parseNat_append_singleton, h4, hv]
        omega
      · intro j hj hpow
        cases j with
        | zero => omega
        | succ i =>
          have hi : 0 < i := by
            rcases Nat.eq_zero_or_pos i with h0 | h0
            · subst h0
              norm_num at hpow
              omega
            · exact h0
          have hdiv : n / 10 < 10 ^ i := by
            rw [Nat.pow_succ] at hpow
            exact Nat.div_lt_of_lt_mul (by omega)
          have := h5 i hi hdiv
          simp only [List.length_append, List.length_singleton]
          omega

theorem decimal_canonical (k : Int) : IsCanonicalDecimal k (decimal k) := by
  obtain ⟨h1, h2, h3, h4, _⟩ := natDigits_spec (k.natAbs + 1) k.natAbs (Nat.lt_succ_self _)
  exact ⟨_, h1, h2, h3, h4, rfl⟩

theorem decimal_head (k : Int) : (decimal k).head? = some 45 ↔ k < 0 := by
  obtain ⟨h1, h2, _⟩ := natDigits_spec (k.natAbs + 1) k.natAbs (Nat.lt_succ_self _)
  by_cases hk : k < 0
  · simp [decimal, hk]
  · rw [decimal, if_neg hk]
    refine ⟨?_, fun h => absurd h hk⟩
    cases hd : natDigits (k.natAbs + 1) k.natAbs with
    | nil => exact absurd hd h1
    | cons c t =>
      have hc := h2 c (by rw [hd]; exact List.mem_cons_self c t)
      intro hh
      simp only [List.head?_cons, Option.some.injEq] at hh
      rw [hh] at hc
      exact absurd hc (by decide)

theorem parseDecimal_decimal (k : Int) : parseDecimal (decimal k) = k := by
  obtain ⟨h1, h2, _, h4, _⟩ := natDigits_spec (k.natAbs + 1) k.natAbs (Nat.lt_succ_self _)
  by_cases hk : k < 0
  · simp only [decimal, if_pos hk, parseDecimal, if_true, h4]
    omega
  · simp only [decimal, if_neg hk]
    cases hd : natDigits (k.natAbs + 1) k.natAbs with
    | nil => exact absurd hd h1
    | cons c t =>
      have hc := h2 c (by rw [hd]; exact List.mem_cons_self c t)
      have hne : c ≠ 45 := by
        intro hh
        rw [hh] at hc
        revert hc
        decide
      rw [hd] at h4
      simp only [parseDecimal, if_neg hne, h4]
      omega

theorem decimal_injective {k1 k2 : Int} (h : decimal k1 = decimal k2) : k1 = k2 := by
  rw [← parseDecimal_decimal k1, ← parseDecimal_decimal k2, h]

theorem decimal_length (k : Int) (hk : IsInt k) : (decimal k).length ≤ 11 := by
  obtain ⟨_, _, _, _, h5⟩ := natDigits_spec (k.natAbs + 1) k.natAbs (Nat.lt_succ_self _)
  obtain ⟨hlo, hhi⟩ := hk
  have hlen := h5 10 (by norm_num) (by norm_num at hlo hhi ⊢; omega)
  unfold decimal
  split_ifs
  · simp only [List.length_cons]
    omega
  · omega

theorem decimal_zeroFree (k : Int) : ZeroFree (decimal k) := by
  obtain ⟨_, h2, _⟩ := natDigits_spec (k.natAbs + 1) k.natAbs (Nat.lt_succ_self _)
  have hd : ZeroFree (natDigits (k.natAbs + 1) k.natAbs) := by
    intro c hc h0
    have := (h2 c hc).1
    rw [h0] at this
    revert this
    decide
  unfold decimal
  split_ifs
  · intro c hc
    rcases List.mem_cons.mp hc with h | h
    · rw [h]
      decide
    · exact hd c h
  · exact hd

theorem writeString_spec (t : List Byte) (dest : Buf) (h : t.length < dest.length) :
    writeString dest t = some (t.map some ++ some 0 :: dest.drop (t.length + 1)) := by
  induction t generalizing dest with
  | nil =>
    cases dest with
    | nil => simp at h
    | cons d ds => simp [writeString]
  | cons c u ih =>
    cases dest with
    | nil => simp at h
    | cons d ds =>
      have hlen : u.length < ds.length := by simpa using h
      simp [writeString, ih ds hlen]

theorem sprintf_strkey (k : Int) (hk : IsInt k) :
    ∃ strkey, sprintf (localArray 1024) k = some strkey ∧ strkey.length = 1024 ∧
      content strkey = some (decimal k) := by
  have hlen := decimal_length k hk
  have hw := writeString_spec (decimal k) (localArray 1024) (by simp [localArray]; omega)
  refine ⟨_, hw, ?_, content_terminated _ (decimal_zeroFree k) _⟩
  simp only [localArray, List.length_append, List.length_map, List.length_cons,
    List.length_drop, List.length_replicate]
  omega

/-! ## The map -/

theorem map_set_content {V : Type} (m : KeyedMap V) {key : Buf} {k : List Byte} (v : V)
    (h : content key = some k) :
    map_set m key v = some ((k, v) :: m.filter (fun e => decide (e.1 ≠ k))) := by
  simp [map_set, h]

theorem MapIntIntSet_eq (map : GoIntMap) (k n : Int) (hk : IsInt k) :
    MapIntIntSet map k n
      = some ((decimal k, n) :: map.filter (fun e => decide (e.1 ≠ decimal k))) := by
  obtain ⟨strkey, h1, _, h2⟩ := sprintf_strkey k hk
  simp only [MapIntIntSet, h1, Option.bind_eq_bind, Option.some_bind, map_set_content map n h2]

theorem MapIntStringSet_eq (map : GoStringMap) (k : Int) (s : GoString_) (hk : IsInt k) :
    MapIntStringSet map k s
      = some ((decimal k, s) :: map.filter (fun e => decide (e.1 ≠ decimal k))) := by
  obtain ⟨strkey, h1, _, h2⟩ := sprintf_strkey k hk
  simp only [MapIntStringSet, h1, Option.bind_eq_bind, Option.some_bind,
    map_set_content map s h2]

theorem MapIntObjectSet_eq (map : GoObjectMap) (k : Int) (s : Nat) (hk : IsInt k) :
    MapIntObjectSet map k s
      = some ((decimal k, s) :: map.filter (fun e => decide (e.1 ≠ decimal k))) := by
  obtain ⟨strkey, h1, _, h2⟩ := sprintf_strkey k hk
  simp only [MapIntObjectSet, h1, Option.bind_eq_bind, Option.some_bind,
    map_set_content map s h2]

theorem entriesFor_set {V : Type} (m : KeyedMap V) (k : List Byte) (v : V) :
    entriesFor ((k, v) :: m.filter (fun e => decide (e.1 ≠ k))) k = [(k, v)] := by
  simp [entriesFor, List.filter_cons, List.filter_filter]

theorem map_get_set_same {V : Type} (m : KeyedMap V) {key : Buf} {k : List Byte} (v : V)
    (h : content key = some k) :
    map_get ((k, v) :: m.filter (fun e => decide (e.1 ≠ k))) key = some (some v) := by
  simp [map_get, h]

theorem map_get_set_other {V : Type} (m : KeyedMap V) {key : Buf} {k k2 : List Byte} (v : V)
    (h : content key = some k) (hne : k ≠ k2) :
    map_get ((k2, v) :: m.filter (fun e => decide (e.1 ≠ k2))) key = map_get m key := by
  have h2 : ¬ k2 = k := fun e => hne e.symm
  have hp : (fun a : List Byte × V => (!decide (a.1 = k2) && decide (a.1 = k)))
      = fun e => decide (e.1 = k) := by
    funext a
    by_cases ha : a.1 = k
    · simp [ha, hne]
    · simp [ha]
  simp [map_get, h, h2, List.find?_filter, hp]

/-! ## The claims on the maps -/

/-- C11: for every `int` key `k`, the key that `MapIntIntSet`,
`MapIntStringSet` and `MapIntObjectSet` pass to `map_set` is the buffer that
`sprintf` filled, whose content is the minimal decimal rendering of `k`:
decimal digits without leading zeros, a leading `-` exactly when `k < 0`,
`"0"` for zero; reading it back as a decimal integer yields `k`. -/
theorem MapIntSet_canonical_key (k : Int) (hk : IsInt k) :
    ∃ strkey, sprintf (localArray 1024) k = some strkey ∧
      content strkey = some (decimal k) ∧
      (∀ (m : GoIntMap) (n : Int), MapIntIntSet m k n = map_set m strkey n) ∧
      (∀ (m : GoStringMap) (s : GoString_), MapIntStringSet m k s = map_set m strkey s) ∧
      (∀ (m : GoObjectMap) (p : Nat), MapIntObjectSet m k p = map_set m strkey p) ∧
      IsCanonicalDecimal k (decimal k) ∧
      ((decimal k).head? = some 45 ↔ k < 0) ∧
      (k = 0 → decimal k = [48]) ∧
      parseDecimal (decimal k) = k := by
  obtain ⟨strkey, h1, _, h2⟩ := sprintf_strkey k hk
  refine ⟨strkey, h1, h2, ?_, ?_, ?_, decimal_canonical k, decimal_head k, ?_,
    parseDecimal_decimal k⟩
  · intro m n
    simp only [MapIntIntSet, h1, Option.bind_eq_bind, Option.some_bind]
  · intro m s
    simp only [MapIntStringSet, h1, Option.bind_eq_bind, Option.some_bind]
  · intro m p
    simp only [MapIntObjectSet, h1, Option.bind_eq_bind, Option.some_bind]
  · intro h0
    rw [h0]
    rfl

/-- Witness of C11: the key -120 reaches the map as "-120". -/
theorem MapIntSet_canonical_key_witness :
    IsInt (-120) ∧
    ∃ strkey, sprintf (localArray 1024) (-120) = some strkey ∧
      content strkey = some (bytes "-120") ∧
      (∀ (m : GoIntMap) (n : Int), MapIntIntSet m (-120) n = map_set m strkey n) ∧
      (∀ (m : GoStringMap) (s : GoString_),
        MapIntStringSet m (-120) s = map_set m strkey s) ∧
      (∀ (m : GoObjectMap) (p : Nat), MapIntObjectSet m (-120) p = map_set m strkey p) ∧
      IsCanonicalDecimal (-120) (bytes "-120") ∧
      ((bytes "-120").head? = some 45 ↔ (-120 : Int) < 0) ∧
      ((-120 : Int) = 0 → bytes "-120" = [48]) ∧
      parseDecimal (bytes "-120") = -120 :=
  ⟨by decide, MapIntSet_canonical_key (-120) (by decide)⟩

/-- C12: canonicalization is collision-free. For `int` keys `k1 ≠ k2` the
canonical decimal forms differ, and after `MapIntIntSet m k1 v1` followed by
`MapIntIntSet _ k2 v2` the map holds `v1` under the canonical key of `k1` and
`v2` under the canonical key of `k2`. -/
theorem MapIntIntSet_collision_free (k1 k2 : Int) (h1 : IsInt k1) (h2 : IsInt k2)
    (hne : k1 ≠ k2) (m : GoIntMap) (v1 v2 : Int) :
    decimal k1 ≠ decimal k2 ∧
    ∃ m1 m2, MapIntIntSet m k1 v1 = some m1 ∧ MapIntIntSet m1 k2 v2 = some m2 ∧
      map_get m2 (cstr (decimal k1)) = some (some v1) ∧
      map_get m2 (cstr (decimal k2)) = some (some v2) := by
  have hd : decimal k1 ≠ decimal k2 := fun h => hne (decimal_injective h)
  have hc1 := content_cstr _ (decimal_zeroFree k1)
  have hc2 := content_cstr _ (decimal_zeroFree k2)
  refine ⟨hd, _, _, MapIntIntSet_eq m k1 v1 h1, MapIntIntSet_eq _ k2 v2 h2, ?_, ?_⟩
  · rw [map_get_set_other _ v2 hc1 hd]
    exact map_get_set_same m v1 hc1
  · exact map_get_set_same _ v2 hc2

/-- Witness of C12 on the keys 1 and -1 and the empty map. -/
theorem MapIntIntSet_collision_free_witness :
    decimal 1 ≠ decimal (-1) ∧
    ∃ m1 m2, MapIntIntSet [] 1 10 = some m1 ∧ MapIntIntSet m1 (-1) 20 = some m2 ∧
      map_get m2 (cstr (decimal 1)) = some (some 10) ∧
      map_get m2 (cstr (decimal (-1))) = some (some 20) :=
  MapIntIntSet_collision_free 1 (-1) (by decide) (by decide) (by decide) [] 10 20

/-- C13: integer and string keys share one namespace, last write wins. For
every map `m` and values `v`, `v2`: after `MapIntIntSet m 5 v` and
`MapStringIntSet _ (string_init "5") v2` the map has exactly one entry for the
key "5", and it holds `v2`; for every `int` key `k`, a string-keyed set whose
key is the canonical form of `k` overwrites the entry of the integer-keyed
set. -/
theorem Map_shared_namespace (m : GoIntMap) (v v2 : Int) :
    (∃ s m1 m2, string_init (cstr (bytes "5")) = some s ∧ MapIntIntSet m 5 v = some m1 ∧
      MapStringIntSet m1 s v2 = some m2 ∧ entriesFor m2 (bytes "5") = [(bytes "5", v2)] ∧
      map_get m2 (cstr (bytes "5")) = some (some v2)) ∧
    (∀ (k : Int) (key : GoString_), IsInt k → content key.str = some (decimal k) →
      ∃ m1 m2, MapIntIntSet m k v = some m1 ∧
        map_get m1 (cstr (decimal k)) = some (some v) ∧
        MapStringIntSet m1 key v2 = some m2 ∧
        entriesFor m2 (decimal k) = [(decimal k, v2)] ∧
        map_get m2 (cstr (decimal k)) = some (some v2)) := by
  have hgen : ∀ (k : Int) (key : GoString_), IsInt k → content key.str = some (decimal k) →
      ∃ m1 m2, MapIntIntSet m k v = some m1 ∧
        map_get m1 (cstr (decimal k)) = some (some v) ∧
        MapStringIntSet m1 key v2 = some m2 ∧
        entriesFor m2 (decimal k) = [(decimal k, v2)] ∧
        map_get m2 (cstr (decimal k)) = some (some v2) := by
    intro k key hk hkey
    have hc := content_cstr _ (decimal_zeroFree k)
    exact ⟨_, _, MapIntIntSet_eq m k v hk, map_get_set_same m v hc,
      map_set_content _ v2 hkey, entriesFor_set _ _ v2, map_get_set_same _ v2 hc⟩
  refine ⟨?_, hgen⟩
  have h5 : content (cstr (bytes "5")) = some (decimal 5) := by decide
  obtain ⟨m1, m2, a1, _, a3, a4, a5⟩ :=
    hgen 5 { str := cstr (bytes "5"), size := 1 } (by decide) h5
  exact ⟨_, m1, m2, by decide, a1, a3, a4, a5⟩

/-- Witness of C13 on the key -7, written as an integer and then as "-7". -/
theorem Map_shared_namespace_witness :
    ∃ m1 m2, MapIntIntSet [] (-7) 1 = some m1 ∧
      map_get m1 (cstr (decimal (-7))) = some (some 1) ∧
      MapStringIntSet m1 { str := cstr (bytes "-7"), size := 2 } 2 = some m2 ∧
      entriesFor m2 (decimal (-7)) = [(decimal (-7), 2)] ∧
      map_get m2 (cstr (decimal (-7))) = some (some 2) :=
  (Map_shared_namespace [] 1 2).2 (-7) { str := cstr (bytes "-7"), size := 2 }
    (by decide) (by decide)

/-- C14: for each value kind, the integer-keyed set yields the same map as
the string-keyed set called with the StringValue that holds the canonical
decimal form of the `int` key `k`; and a string-keyed set stores its key
unchanged: the one entry under the content of the key holds the value. -/
theorem MapIntSet_refines_MapStringSet (k : Int) (hk : IsInt k) :
    ∃ s, canonicalKey k = some s ∧ content s.str = some (decimal k) ∧
      (∀ (m : GoIntMap) (v : Int), MapIntIntSet m k v = MapStringIntSet m s v) ∧
      (∀ (m : GoStringMap) (v : GoString_),
        MapIntStringSet m k v = MapStringStringSet m s v) ∧
      (∀ (m : GoObjectMap) (v : Nat), MapIntObjectSet m k v = MapStringObjectSet m s v) ∧
      (∀ (key : GoString_) (x : List Byte), content key.str = some x →
        (∀ (m : GoIntMap) (v : Int), ∃ m2, MapStringIntSet m key v = some m2 ∧
          entriesFor m2 x = [(x, v)]) ∧
        (∀ (m : GoStringMap) (v : GoString_), ∃ m2, MapStringStringSet m key v = some m2 ∧
          entriesFor m2 x = [(x, v)]) ∧
        (∀ (m : GoObjectMap) (v : Nat), ∃ m2, MapStringObjectSet m key v = some m2 ∧
          entriesFor m2 x = [(x, v)])) := by
  have hc := content_cstr _ (decimal_zeroFree k)
  refine ⟨_, string_init_spec hc, hc, ?_, ?_, ?_, ?_⟩
  · intro m v
    rw [MapIntIntSet_eq m k v hk]
    exact (map_set_content m v hc).symm
  · intro m v
    rw [MapIntStringSet_eq m k v hk]
    exact (map_set_content m v hc).symm
  · intro m v
    rw [MapIntObjectSet_eq m k v hk]
    exact (map_set_content m v hc).symm
  · intro key x hx
    exact ⟨fun m v => ⟨_, map_set_content m v hx, entriesFor_set m x v⟩,
      fun m v => ⟨_, map_set_content m v hx, entriesFor_set m x v⟩,
      fun m v => ⟨_, map_set_content m v hx, entriesFor_set m x v⟩⟩

/-- Witness of C14 on the key 42 and the empty map. -/
theorem MapIntSet_refines_MapStringSet_witness :
    MapIntIntSet [] 42 7 = MapStringIntSet [] { str := cstr (bytes "42"), size := 2 } 7 ∧
    MapIntIntSet [] 42 7 = some [(bytes "42", 7)] :=
  have h := MapIntSet_refines_MapStringSet 42 (by decide)
  ⟨by
    obtain ⟨s, hs, _, h1, _⟩ := h
    have e : s = { str := cstr (bytes "42"), size := 2 } :=
      Option.some.inj (hs.symm.trans (by decide))
    rw [← e]
    exact h1 [] 7,
   by decide⟩

/-- C15: for every value `k` of the key type (32-bit `int`), the canonical
decimal form has at most 11 characters, so with its terminator it needs at
most 12 bytes, within the 1024 bytes of `strkey`: `sprintf` stays inside the
buffer and the whole form is the content of the buffer. -/
theorem strkey_no_overflow (k : Int) (hk : IsInt k) :
    (decimal k).length ≤ 11 ∧ (decimal k).length + 1 ≤ 12 ∧
    12 ≤ (localArray 1024).length ∧
    ∃ strkey, sprintf (localArray 1024) k = some strkey ∧ strkey.length = 1024 ∧
      content strkey = some (decimal k) := by
  have h := decimal_length k hk
  exact ⟨h, by omega, by simp [localArray], sprintf_strkey k hk⟩

/-- Witness of C15 on the longest form, that of -2147483648 (11 characters). -/
theorem strkey_no_overflow_witness :
    (decimal (-2147483648)).length = 11 ∧
    ∃ strkey, sprintf (localArray 1024) (-2147483648) = some strkey ∧
      strkey.length = 1024 ∧ content strkey = some (bytes "-2147483648") :=
  ⟨by decide, (strkey_no_overflow (-2147483648) (by decide)).2.2.2⟩

/-! ## Results of the string operations -/

theorem strcpy_some {dest src b : Buf} (h : strcpy dest src = some b) :
    ∃ y, content src = some y ∧ y.length < dest.length ∧
      b = y.map some ++ some 0 :: dest.drop (y.length + 1) := by
  induction src generalizing dest b with
  | nil => cases dest <;> simp [strcpy] at h
  | cons c t ih =>
    cases dest with
    | nil => simp [strcpy] at h
    | cons d ds =>
      cases c with
      | none => simp [strcpy] at h
      | some a =>
        by_cases ha : a = 0
        · simp only [strcpy, ha, if_true, Option.some.injEq] at h
          exact ⟨[], by simp [content, ha], by simp, by simp [← h]⟩
        · simp only [strcpy, ha, if_false, Option.map_eq_some'] at h
          obtain ⟨b2, hb2, rfl⟩ := h
          obtain ⟨y, hy, hlen, rfl⟩ := ih hb2
          exact ⟨a :: y, by simp [content, ha, hy], by simpa using hlen, by simp⟩

theorem content_set_zero_any (y : List Byte) (hy : ZeroFree y) (rest : Buf) (l : Nat) :
    content ((y.map some ++ some 0 :: rest).set l (some 0)) = some (y.take l) := by
  induction y generalizing l with
  | nil => cases l <;> simp [content]
  | cons c t ih =>
    cases l with
    | zero => simp [content]
    | succ k => simp [content, hy.head, ih hy.tail k]

theorem store_some {p q : Buf} {i : Int} {b : Byte} (h : store p i b = some q) :
    0 ≤ i ∧ i < (p.length : Int) ∧ q = p.set i.toNat (some b) := by
  unfold store at h
  split_ifs at h with hc
  exact ⟨hc.1, hc.2, (Option.some.inj h).symm⟩

theorem string_substring_some {s r : GoString_} {index len : Int}
    (h : string_substring s index len = some r) :
    ∃ y, content r.str = some y ∧ r.str.length = r.size + 1 := by
  simp only [string_substring, Option.bind_eq_bind, Option.bind_eq_some, Option.pure_def,
    Option.some.injEq] at h
  obtain ⟨n, _, src, _, buf, hcpy, q, hst, rfl⟩ := h
  obtain ⟨y, hy, hlen, rfl⟩ := strcpy_some hcpy
  obtain ⟨_, _, rfl⟩ := store_some hst
  refine ⟨_, content_set_zero_any y (content_some hy).1 _ _, ?_⟩
  simp only [malloc, List.length_replicate] at hlen
  simp only [List.length_set, List.length_append, List.length_map, List.length_cons,
    List.length_drop, malloc, List.length_replicate]
  omega

theorem string_init_some {p : Buf} {s : GoString_} (h : string_init p = some s) :
    ∃ x, content p = some x ∧ s = { str := cstr x, size := x.length } := by
  cases hc : content p with
  | none => simp [string_init, strlen_eq_content, hc] at h
  | some x =>
    rw [string_init_spec hc] at h
    exact ⟨x, rfl, (Option.some.inj h).symm⟩

theorem string_concat_some {a b s : GoString_} (h : string_concat a b = some s) :
    ∃ x y, content a.str = some x ∧ content b.str = some y ∧
      s = { str := cstr (x ++ y), size := x.length + y.length } := by
  cases ha : content a.str with
  | none => simp [string_concat, strlen_eq_content, ha] at h
  | some x =>
    cases hb : content b.str with
    | none => simp [string_concat, strlen_eq_content, ha, hb] at h
    | some y =>
      rw [string_concat_spec ha hb] at h
      exact ⟨x, y, rfl, rfl, (Option.some.inj h).symm⟩

theorem produced_content {s : GoString_} (h : Produced s) : ∃ x, content s.str = some x := by
  cases h with
  | init p s hs =>
    obtain ⟨x, hx, rfl⟩ := string_init_some hs
    exact ⟨x, content_cstr x (content_some hx).1⟩
  | concat a b s hs =>
    obtain ⟨x, y, hx, hy, rfl⟩ := string_concat_some hs
    exact ⟨x ++ y, content_cstr _ ((content_some hx).1.append (content_some hy).1)⟩
  | substring a index len s hs =>
    obtain ⟨y, hy, _⟩ := string_substring_some hs
    exact ⟨y, hy⟩

theorem string_substring_negative {s : GoString_} {x : List Byte} (index len : Int) (i : Nat)
    (hs : content s.str = some x) (hn : x.length < 2 ^ 32)
    (hi : index = (i : Int)) (hix : i ≤ x.length)
    (hlen : (if toUInt32 (toInt32 (index + len)) > x.length % 2 ^ 32 then
        toInt32 ((((x.length % 2 ^ 32 : Nat) : Int) - (toUInt32 index : Int)) % 2 ^ 32)
      else len) < 0) :
    string_substring s index len = none := by
  obtain ⟨hx, rest, hrest⟩ := content_some hs
  have hmod : x.length % 2 ^ 32 = x.length := Nat.mod_eq_of_lt hn
  rw [hmod] at hlen
  have hcpy := strcpy_terminated (x.drop i) (hx.drop i) rest
    (List.replicate (x.length + 1) none) (by simp; omega)
  have hst : ∀ buf : Buf, store buf (if toUInt32 (toInt32 (index + len)) > x.length then
        toInt32 ((((x.length : Nat) : Int) - (toUInt32 index : Int)) % 2 ^ 32)
      else len) 0 = none := by
    intro buf
    unfold store
    rw [if_neg]
    intro hc
    omega
  subst hi
  simp only [string_substring, hrest, strlen_terminated x hx, hmod, malloc,
    ptrAdd_terminated x rest i hix, hcpy, hst, Option.bind_eq_bind, Option.some_bind,
    Option.none_bind]

theorem content_above_half : content (cstr (List.replicate (2 ^ 31 + 1) (1 : Byte)))
    = some (List.replicate (2 ^ 31 + 1) 1) :=
  content_cstr _ (zeroFree_replicate_one _)

/-! ## Further claims on the strings -/

theorem string_charAt_eval {s : GoString_} {x : List Byte} (i : Nat)
    (hs : content s.str = some x) :
    ∃ c, string_charAt s i = some c ∧ (c = 0 ↔ x.length ≤ i) := by
  obtain ⟨hx, rest, hrest⟩ := content_some hs
  by_cases h : i < x.length
  · refine ⟨x.get ⟨i, h⟩, ?_, ?_⟩
    · simp only [string_charAt, hrest, strlen_terminated x hx, Option.bind_eq_bind,
        Option.some_bind, if_pos h, load_terminated x rest i h]
    · constructor
      · intro h0
        exact absurd h0 (hx _ (List.get_mem x i h))
      · intro hle
        omega
  · refine ⟨0, ?_, ?_⟩
    · simp only [string_charAt, hrest, strlen_terminated x hx, Option.bind_eq_bind,
        Option.some_bind, if_neg h, Option.pure_def]
    · constructor
      · intro _
        omega
      · intro _
        rfl

theorem charAt_of_long_input (r : List Byte) (h : content (cstr r) = some r)
    (hl : r.length = 2 ^ 32) :
    ∃ s c, string_init (cstr r) = some s ∧ Produced s ∧ string_length s = some 0 ∧
      string_charAt s 0 = some c ∧ c ≠ 0 := by
  obtain ⟨c, hc, hiff⟩ := string_charAt_eval (s := { str := cstr r, size := r.length }) 0 h
  refine ⟨_, c, string_init_spec h, Produced.init _ _ (string_init_spec h), ?_, hc, ?_⟩
  · rw [string_length_spec h, hl]
    norm_num
  · intro h0
    have := hiff.mp h0
    rw [hl] at this
    norm_num at this

/-- C16, as stated, fails: `string_init` of 2^32 non-zero bytes produces a
value whose `string_length` is 0, so index 0 is not below `string_length`,
yet `string_charAt` at index 0 is not zero. -/
theorem string_charAt_long :
    ∃ s c, string_init (cstr (List.replicate (2 ^ 32) 1)) = some s ∧ Produced s ∧
      string_length s = some 0 ∧ string_charAt s 0 = some c ∧ c ≠ 0 :=
  charAt_of_long_input _ content_large (List.length_replicate _ _)

/-- C16, amended: for every StringValue `s` produced by `string_init`,
`string_concat` or `string_substring` and every index `i`,
`string_charAt s i` is 0 iff `i ≥ n`, where `n` is the number of bytes of `s`
before the first zero byte; and `string_length s` is `n` whenever `n` is
below 2^32. -/
theorem string_charAt_zero_iff (s : GoString_) (hs : Produced s) :
    ∃ n, strlen s.str = some n ∧
      (∀ i : Nat, ∃ c, string_charAt s i = some c ∧ (c = 0 ↔ n ≤ i)) ∧
      (n < 2 ^ 32 → string_length s = some n) := by
  obtain ⟨x, hx⟩ := produced_content hs
  refine ⟨x.length, by rw [strlen_eq_content, hx, Option.map_some'],
    fun i => string_charAt_eval i hx, ?_⟩
  intro hfit
  rw [string_length_spec hx, Nat.mod_eq_of_lt hfit]

/-- Witness of C16 (amended) on `string_substring (string_init "hello") 1 3`. -/
theorem string_charAt_zero_iff_witness :
    ∃ n, strlen [some 101, some 108, some 108, some 0, some 0, none] = some n ∧
      (∀ i : Nat, ∃ c,
        string_charAt { str := [some 101, some 108, some 108, some 0, some 0, none], size := 5 } i
          = some c ∧ (c = 0 ↔ n ≤ i)) ∧
      (n < 2 ^ 32 →
        string_length { str := [some 101, some 108, some 108, some 0, some 0, none], size := 5 }
          = some n) :=
  string_charAt_zero_iff
    { str := [some 101, some 108, some 108, some 0, some 0, none], size := 5 }
    (Produced.substring { str := cstr (bytes "hello"), size := 5 } 1 3
      { str := [some 101, some 108, some 108, some 0, some 0, none], size := 5 } (by decide))

theorem substring_at_one_of_long (r : List Byte) (h : content (cstr r) = some r)
    (hl : r.length = 2 ^ 32) :
    strlen (cstr r) = some (2 ^ 32) ∧
    string_substring { str := cstr r, size := 2 ^ 32 } 1 0 = none := by
  refine ⟨?_, string_substring_overflow 1 0 1 h rfl ?_ ?_⟩
  · rw [strlen_eq_content, h, Option.map_some', hl]
  · rw [hl]
    norm_num
  · rw [hl]
    norm_num

/-- C17, as stated, fails: on a StringValue of 2^32 bytes, index 1 is within
`0 ≤ i ≤ length(s)`, but `string_substring s 1 0` returns no value (the length
kept in an `unsigned int` is 0 and the copy leaves the 1 byte allocated). -/
theorem string_substring_empty_long :
    strlen (cstr (List.replicate (2 ^ 32) 1)) = some (2 ^ 32) ∧
    string_substring { str := cstr (List.replicate (2 ^ 32) 1), size := 2 ^ 32 } 1 0 = none :=
  substring_at_one_of_long _ content_large (List.length_replicate _ _)

/-- C17, amended: `string_concat` of two empty StringValues yields an empty
StringValue; and for every StringValue `s` of length `n < 2^32` and index `i`
with `0 ≤ i ≤ n`, `string_substring s i 0` yields an empty StringValue
(`string_length` 0). -/
theorem string_empty_cases :
    (∀ a b : GoString_, content a.str = some [] → content b.str = some [] →
      ∃ c, string_concat a b = some c ∧ content c.str = some [] ∧
        string_length c = some 0) ∧
    (∀ (s : GoString_) (n : Nat) (i : Int), strlen s.str = some n → n < 2 ^ 32 →
      0 ≤ i → i ≤ n →
      ∃ r, string_substring s i 0 = some r ∧ content r.str = some [] ∧
        string_length r = some 0) := by
  constructor
  · intro a b ha hb
    have hc : content (cstr ([] ++ [] : List Byte)) = some [] := by decide
    exact ⟨_, string_concat_spec ha hb, hc, by rw [string_length_spec hc]; rfl⟩
  · intro s n i hs hfit h0 h1
    obtain ⟨x, hx, rfl⟩ := strlen_some hs
    have hmod : x.length % 2 ^ 32 = x.length := Nat.mod_eq_of_lt hfit
    have hcl : (if toUInt32 (toInt32 (i + 0)) > x.length % 2 ^ 32 then
          toInt32 ((((x.length % 2 ^ 32 : Nat) : Int) - (toUInt32 i : Int)) % 2 ^ 32)
        else 0) = ((0 : Nat) : Int) := by
      rw [toUInt32_toInt32, hmod]
      unfold toUInt32 toInt32
      split_ifs with hc <;> omega
    obtain ⟨r, hr, _, hcont⟩ := string_substring_eval i 0 i.toNat 0 hx hfit
      (by omega) (by omega) (Nat.zero_le _) hcl
    rw [List.take_zero] at hcont
    exact ⟨r, hr, hcont, by rw [string_length_spec hcont]; rfl⟩

/-- Witness of C17 (amended): two empty values, and `substring("hello", 5, 0)`. -/
theorem string_empty_cases_witness :
    (∃ c, string_concat { str := cstr [], size := 0 } { str := cstr [], size := 0 } = some c ∧
      content c.str = some [] ∧ string_length c = some 0) ∧
    (∃ r, string_substring { str := cstr (bytes "hello"), size := 5 } 5 0 = some r ∧
      content r.str = some [] ∧ string_length r = some 0) :=
  ⟨string_empty_cases.1 _ _ (by decide) (by decide),
   string_empty_cases.2 { str := cstr (bytes "hello"), size := 5 } 5 5 (by decide)
     (by norm_num) (by decide) (by decide)⟩

theorem substring_one_byte_of_long (r : List Byte) (h : content (cstr r) = some r)
    (hl : r.length = 2 ^ 32) :
    strlen (cstr r) = some (2 ^ 32) ∧
    string_substring { str := cstr r, size := 2 ^ 32 } 0 1 = none := by
  refine ⟨?_, string_substring_overflow 0 1 0 h rfl (Nat.zero_le _) ?_⟩
  · rw [strlen_eq_content, h, Option.map_some', hl]
  · rw [hl]
    norm_num

/-- C18, as stated, fails: on a StringValue of 2^32 bytes, `index = 0` and
`len = 1` satisfy the precondition, but the length kept in an `unsigned int`
is 0, 1 byte is allocated, and the copy of the tail leaves it: the checked
embedding reaches its out-of-bounds branch. -/
theorem string_substring_leaves_buffer :
    strlen (cstr (List.replicate (2 ^ 32) 1)) = some (2 ^ 32) ∧
    string_substring { str := cstr (List.replicate (2 ^ 32) 1), size := 2 ^ 32 } 0 1 = none :=
  substring_one_byte_of_long _ content_large (List.length_replicate _ _)

/-- C18, amended: for a StringValue `s` of length `n < 2^32` and `int`
arguments with `0 ≤ index ≤ n` and `len ≥ 0`, the clamped `len` is some `l`
with `0 ≤ l ≤ n - index`; the copy of the tail (`n - index + 1` bytes) and the
terminator write at `l` fall within the `n + 1` bytes allocated, and
`string_substring` returns a value: no checked access fails. -/
theorem string_substring_in_bounds (s : GoString_) (x : List Byte) (index len : Int)
    (hs : content s.str = some x) (hfit : x.length < 2 ^ 32)
    (hindex : IsInt index) (hlen : IsInt len)
    (h0 : 0 ≤ index) (h1 : index ≤ x.length) (h2 : 0 ≤ len) :
    ∃ (l : Nat) (r : GoString_),
      (if toUInt32 (toInt32 (index + len)) > x.length % 2 ^ 32 then
          toInt32 ((((x.length % 2 ^ 32 : Nat) : Int) - (toUInt32 index : Int)) % 2 ^ 32)
        else len) = (l : Int) ∧
      l ≤ x.length - index.toNat ∧
      x.length - index.toNat + 1 ≤ x.length + 1 ∧
      l < x.length + 1 ∧
      string_substring s index len = some r ∧
      r.str.length = x.length + 1 ∧
      content r.str = some ((x.drop index.toNat).take l) := by
  obtain ⟨_, hi2⟩ := hindex
  obtain ⟨_, hl2⟩ := hlen
  have hmod : x.length % 2 ^ 32 = x.length := Nat.mod_eq_of_lt hfit
  have hcl : (if toUInt32 (toInt32 (index + len)) > x.length % 2 ^ 32 then
        toInt32 ((((x.length % 2 ^ 32 : Nat) : Int) - (toUInt32 index : Int)) % 2 ^ 32)
      else len) = ((min len.toNat (x.length - index.toNat) : Nat) : Int) := by
    rw [toUInt32_toInt32, hmod]
    unfold toUInt32 toInt32
    split_ifs with hc <;> omega
  obtain ⟨r, hr, hsize, hcont⟩ := string_substring_eval index len index.toNat
    (min len.toNat (x.length - index.toNat)) hs hfit (by omega) (by omega)
    (Nat.min_le_right _ _) hcl
  obtain ⟨_, _, hbuf⟩ := string_substring_some hr
  exact ⟨_, r, hcl, Nat.min_le_right _ _, by omega, by omega, hr, by omega, hcont⟩

/-- Witness of C18 (amended): `substring("hello", 2, 10)` clamps `len` to 3. -/
theorem string_substring_in_bounds_witness :
    ∃ (l : Nat) (r : GoString_),
      (if toUInt32 (toInt32 ((2 : Int) + 10)) > (bytes "hello").length % 2 ^ 32 then
          toInt32 (((((bytes "hello").length % 2 ^ 32 : Nat) : Int)
            - (toUInt32 2 : Int)) % 2 ^ 32)
        else 10) = (l : Int) ∧
      l ≤ (bytes "hello").length - (2 : Int).toNat ∧
      (bytes "hello").length - (2 : Int).toNat + 1 ≤ (bytes "hello").length + 1 ∧
      l < (bytes "hello").length + 1 ∧
      string_substring { str := cstr (bytes "hello"), size := 5 } 2 10 = some r ∧
      r.str.length = (bytes "hello").length + 1 ∧
      content r.str = some (((bytes "hello").drop (2 : Int).toNat).take l) :=
  string_substring_in_bounds { str := cstr (bytes "hello"), size := 5 } (bytes "hello") 2 10
    (by decide) (by decide) (by decide) (by decide) (by decide) (by decide) (by decide)

theorem substring_whole_of_half (r : List Byte) (h : content (cstr r) = some r)
    (hl : r.length = 2 ^ 31) :
    strlen (cstr r) = some (2 ^ 31) ∧ toInt32 (2 ^ 31 - 0) = -(2 ^ 31) ∧
    string_substring { str := cstr r, size := 2 ^ 31 } 0 (toInt32 (2 ^ 31 - 0)) = none := by
  have hconv : toInt32 (2 ^ 31 - 0) = -(2 ^ 31) := by
    unfold toInt32
    norm_num
  refine ⟨?_, hconv, string_substring_negative 0 _ 0 h ?_ rfl (Nat.zero_le _) ?_⟩
  · rw [strlen_eq_content, h, Option.map_some', hl]
  · rw [hl]
    norm_num
  · rw [hl, hconv]
    unfold toUInt32 toInt32
    split_ifs <;> omega

/-- C19, as stated, fails: for a StringValue `s` of 2^31 bytes and `i = 0`,
the argument `length(s) - i` reaches the `int` parameter `len` as -2^31, the
clamp test is false, and the terminator write at a negative position leaves
the buffer: `string_substring s 0 length(s)` returns no value. -/
theorem string_substring_whole_fails :
    strlen (cstr (List.replicate (2 ^ 31) 1)) = some (2 ^ 31) ∧
    toInt32 (2 ^ 31 - 0) = -(2 ^ 31) ∧
    string_substring { str := cstr (List.replicate (2 ^ 31) 1), size := 2 ^ 31 } 0
      (toInt32 (2 ^ 31 - 0)) = none :=
  substring_whole_of_half _ content_half (List.length_replicate _ _)

/-- C19, amended: for every StringValue `s` and `i` with `0 ≤ i ≤ length(s)`
such that `i` and `length(s) - i` are values of type `int`,
`string_concat (string_substring s 0 i) (string_substring s i (length(s) - i))`
has the content of `s` and is `string_is_equal` to `s`; in particular, when
`length(s) < 2^31`, `string_substring s 0 length(s)` is `string_is_equal` to
`s`. -/
theorem string_split_join (s : GoString_) (x : List Byte) (i : Int)
    (hs : content s.str = some x) (h0 : 0 ≤ i) (h1 : i ≤ x.length)
    (hi : IsInt i) (hl : IsInt ((x.length : Int) - i)) :
    (∃ a b c, string_substring s 0 i = some a ∧
      string_substring s i ((x.length : Int) - i) = some b ∧
      string_concat a b = some c ∧ content c.str = some x ∧
      string_is_equal c s = some 1) ∧
    (x.length < 2 ^ 31 →
      ∃ w, string_substring s 0 (x.length : Int) = some w ∧ content w.str = some x ∧
        string_is_equal w s = some 1) := by
  obtain ⟨_, hi2⟩ := hi
  obtain ⟨_, hl2⟩ := hl
  have hfit : x.length < 2 ^ 32 := by omega
  have hmod : x.length % 2 ^ 32 = x.length := Nat.mod_eq_of_lt hfit
  have hz := (content_some hs).1
  have hnoclamp : ∀ index len : Int, 0 ≤ index → 0 ≤ len → index + len ≤ x.length →
      (if toUInt32 (toInt32 (index + len)) > x.length % 2 ^ 32 then
        toInt32 ((((x.length % 2 ^ 32 : Nat) : Int) - (toUInt32 index : Int)) % 2 ^ 32)
      else len) = (len.toNat : Int) := by
    intro index len hi0 hl0 hsum
    rw [toUInt32_toInt32, hmod]
    unfold toUInt32 toInt32
    split_ifs with hc <;> omega
  constructor
  · obtain ⟨a, ha, _, hca⟩ := string_substring_eval 0 i 0 i.toNat hs hfit rfl
      (Nat.zero_le _) (by omega) (hnoclamp 0 i (le_refl _) h0 (by omega))
    obtain ⟨b, hb, _, hcb⟩ := string_substring_eval i ((x.length : Int) - i) i.toNat
      ((x.length : Int) - i).toNat hs hfit (by omega) (by omega) (by omega)
      (hnoclamp i _ h0 (by omega) (by omega))
    have hcat : (x.drop 0).take i.toNat ++ (x.drop i.toNat).take ((x.length : Int) - i).toNat
        = x := by
      have h2 : (x.drop i.toNat).take ((x.length : Int) - i).toNat = x.drop i.toNat :=
        List.take_of_length_le (by rw [List.length_drop]; omega)
      rw [List.drop_zero, h2]
      exact List.take_append_drop _ _
    have hc : content (cstr ((x.drop 0).take i.toNat ++
        (x.drop i.toNat).take ((x.length : Int) - i).toNat)) = some x := by
      rw [hcat]
      exact content_cstr x hz
    refine ⟨a, b, _, ha, hb, string_concat_spec hca hcb, hc, ?_⟩
    rw [string_is_equal_eval hc hs, cmpBytes_self]
    rfl
  · intro hsmall
    obtain ⟨w, hw, _, hcw⟩ := string_substring_eval 0 (x.length : Int) 0 x.length hs hfit rfl
      (Nat.zero_le _) (by omega)
      (by
        have := hnoclamp 0 (x.length : Int) (le_refl _) (by omega) (by omega)
        simpa using this)
    rw [List.drop_zero, List.take_length] at hcw
    refine ⟨w, hw, hcw, ?_⟩
    rw [string_is_equal_eval hcw hs, cmpBytes_self]
    rfl

/-- Witness of C19 (amended): "hello" split at 2 and joined again. -/
theorem string_split_join_witness :
    (∃ a b c, string_substring { str := cstr (bytes "hello"), size := 5 } 0 2 = some a ∧
      string_substring { str := cstr (bytes "hello"), size := 5 } 2
        (((bytes "hello").length : Int) - 2) = some b ∧
      string_concat a b = some c ∧ content c.str = some (bytes "hello") ∧
      string_is_equal c { str := cstr (bytes "hello"), size := 5 } = some 1) ∧
    ((bytes "hello").length < 2 ^ 31 →
      ∃ w, string_substring { str := cstr (bytes "hello"), size := 5 } 0
          ((bytes "hello").length : Int) = some w ∧
        content w.str = some (bytes "hello") ∧
        string_is_equal w { str := cstr (bytes "hello"), size := 5 } = some 1) :=
  string_split_join { str := cstr (bytes "hello"), size := 5 } (bytes "hello") 2
    (by decide) (by decide) (by decide) (by decide) (by decide)

theorem substring_negative_of_above_half (r : List Byte) (h : content (cstr r) = some r)
    (hl : r.length = 2 ^ 31 + 1) :
    strlen (cstr r) = some (2 ^ 31 + 1) ∧
    string_substring { str := cstr r, size := 2 ^ 31 + 1 } 1 (-(2 ^ 31)) = none := by
  refine ⟨?_, string_substring_negative 1 _ 1 h ?_ rfl ?_ ?_⟩
  · rw [strlen_eq_content, h, Option.map_some', hl]
  · rw [hl]
    norm_num
  · rw [hl]
    norm_num
  · rw [hl]
    unfold toUInt32 toInt32
    split_ifs <;> omega

/-- C20, as stated, fails in two ways. With `index = length(s)` the tail that
the clamp branch returns is the empty string: `substring("hello", 5, -6)` is
empty. And on a StringValue of 2^31 + 1 bytes, `index = 1` and `len = -2^31`
have a negative sum, which converted to `unsigned int` is 2^31 + 1, not above
the length: the clamp branch is not taken and the terminator write at a
negative position leaves the buffer. -/
theorem string_substring_negative_sum_fails :
    (∃ r, string_substring { str := cstr (bytes "hello"), size := 5 } 5 (-6) = some r ∧
      content r.str = some []) ∧
    strlen (cstr (List.replicate (2 ^ 31 + 1) 1)) = some (2 ^ 31 + 1) ∧
    string_substring { str := cstr (List.replicate (2 ^ 31 + 1) 1), size := 2 ^ 31 + 1 } 1
      (-(2 ^ 31)) = none :=
  ⟨⟨{ str := [some 0, none, none, none, none, none], size := 5 }, by decide, by decide⟩,
    substring_negative_of_above_half _ content_above_half (List.length_replicate _ _)⟩

/-- C20, amended: for a StringValue `s` of length below 2^31 and `int`
arguments with `0 ≤ index ≤ length(s)` and `index + len < 0`,
`string_substring s index len` takes the clamp branch and returns the whole
tail of `s` from `index`, of length `length(s) - index`; the tail is not empty
when `index < length(s)`. -/
theorem string_substring_negative_len (s : GoString_) (x : List Byte) (index len : Int)
    (hs : content s.str = some x) (hfit : x.length < 2 ^ 31)
    (hindex : IsInt index) (hlen : IsInt len)
    (h0 : 0 ≤ index) (h1 : index ≤ x.length) (hneg : index + len < 0) :
    toUInt32 (toInt32 (index + len)) > x.length % 2 ^ 32 ∧
    ∃ r, string_substring s index len = some r ∧
      content r.str = some (x.drop index.toNat) ∧
      string_length r = some (x.length - index.toNat) ∧
      (index < x.length → x.drop index.toNat ≠ []) := by
  obtain ⟨_, hi2⟩ := hindex
  obtain ⟨hl1, _⟩ := hlen
  have hfit2 : x.length < 2 ^ 32 := by omega
  have hmod : x.length % 2 ^ 32 = x.length := Nat.mod_eq_of_lt hfit2
  have hbranch : toUInt32 (toInt32 (index + len)) > x.length % 2 ^ 32 := by
    rw [toUInt32_toInt32, hmod]
    unfold toUInt32
    omega
  have hcl : (if toUInt32 (toInt32 (index + len)) > x.length % 2 ^ 32 then
        toInt32 ((((x.length % 2 ^ 32 : Nat) : Int) - (toUInt32 index : Int)) % 2 ^ 32)
      else len) = ((x.length - index.toNat : Nat) : Int) := by
    rw [if_pos hbranch, hmod]
    unfold toUInt32 toInt32
    omega
  obtain ⟨r, hr, _, hcont⟩ := string_substring_eval index len index.toNat
    (x.length - index.toNat) hs hfit2 (by omega) (by omega) (le_refl _) hcl
  rw [List.take_of_length_le (by rw [List.length_drop])] at hcont
  refine ⟨hbranch, r, hr, hcont, ?_, ?_⟩
  · rw [string_length_spec hcont, List.length_drop, Nat.mod_eq_of_lt (by omega)]
  · intro hlt habs
    have := congrArg List.length habs
    rw [List.length_drop, List.length_nil] at this
    omega

/-- Witness of C20 (amended): `substring(init "hello", 0, -1)` has content
"hello". -/
theorem string_substring_negative_len_witness :
    toUInt32 (toInt32 ((0 : Int) + -1)) > (bytes "hello").length % 2 ^ 32 ∧
    ∃ r, string_substring { str := cstr (bytes "hello"), size := 5 } 0 (-1) = some r ∧
      content r.str = some (bytes "hello") ∧
      string_length r = some 5 ∧
      ((0 : Int) < (bytes "hello").length → (bytes "hello").drop (0 : Int).toNat ≠ []) :=
  string_substring_negative_len { str := cstr (bytes "hello"), size := 5 } (bytes "hello") 0
    (-1) (by decide) (by decide) (by decide) (by decide) (by decide) (by decide) (by decide)

end Cgogen
